import Mathlib

/-!
Shallow embedding of the gemm_public CPU GEMM library.

Conventions of the embedding:
- Matrix buffers are modelled as total functions `Nat → ℚ` from flat element
  offsets to values; `float` arithmetic is modelled exactly over `ℚ`, so
  statements about agreement up to floating round-off become exact equalities.
- A written pointer argument (the output matrix, a packed panel being filled)
  is passed as a function together with an explicit element offset where the
  C++ call site passes an interior pointer; a read-only interior pointer is
  passed as a shifted view (`shift`).
- C++ `for` loops become `loopUp body count init`, which runs the body on
  indices 0, 1, ..., count-1 in increasing order.
- OpenMP parallel loops are embedded sequentially; every parallel loop in the
  source distributes disjoint work, so the sequential interleaving is the
  functional semantics of the source.
- C++ `int` values are modelled by `Nat` wherever the source only makes sense
  for non-negative values; the separate `IntModel` section models the tile
  arithmetic of gemm_blocked over `Int` (with truncated division, as in C++)
  to evaluate behaviour on negative block sizes.
-/

namespace Gemm

/-- Point update of a flat memory: `upd C p v` is `C` with cell `p` set to `v`. -/
def upd (C : Nat → ℚ) (p : Nat) (v : ℚ) : Nat → ℚ :=
  fun n => if n = p then v else C n

/-- In-place accumulation `C[p] += v`, the elementary step of every kernel. -/
def addAt (C : Nat → ℚ) (p : Nat) (v : ℚ) : Nat → ℚ :=
  upd C p (C p + v)

/-- Single-cell increment viewed as a function of the observed cell `n`. -/
def ind (p : Nat) (v : ℚ) (n : Nat) : ℚ :=
  if n = p then v else 0

/-- `loopUp body m s` runs `body 0`, `body 1`, ..., `body (m-1)` on the state
`s`, in increasing index order: the embedding of a C++ counting `for` loop. -/
def loopUp {α : Type} (body : Nat → α → α) : Nat → α → α
  | 0, s => s
  | m + 1, s => body m (loopUp body m s)

/-- Read-only interior pointer `base + off` as a shifted view of the buffer. -/
def shift (f : Nat → ℚ) (off : Nat) : Nat → ℚ :=
  fun n => f (off + n)

/-- Block configuration, src/include/gemm/gemm.hpp lines 5-7:
`struct Block { int MB = 256, NB = 256, KB = 256; }`. -/
structure Block where
  MB : Nat := 256
  NB : Nat := 256
  KB : Nat := 256

/-- src/cpu/gemm_naive.cpp lines 3-17: the reference triple loop
`for i { for k { a = A[i*lda+k]; for j { C[i*ldc+j] += a * B[k*ldb+j]; } } }`.
The `omp parallel for` over `i` and the `omp simd` over `j` do not change the
functional semantics (distinct `i` touch distinct cells when `ldc ≥ N`). -/
def gemm_naive (M N K : Nat) (A B C : Nat → ℚ) (lda ldb ldc : Nat) : Nat → ℚ :=
  loopUp (fun i Ci =>
    loopUp (fun k Ck =>
      let a := A (i * lda + k)
      loopUp (fun j Cj => addAt Cj (i * ldc + j) (a * B (k * ldb + j))) N Ck) K Ci) M C

/-- One `_mm256_loadu_ps / _mm256_fmadd_ps / _mm256_storeu_ps` step of the
vectorized inner loops (gemm_blocked.cpp lines 35-40, gemm_packed.cpp lines
73-78): the 8 lanes `cbase + j + l` are loaded from the entry state `C`, each
gets `a * B (bbase + j + l)` added, and the 8 results are stored back. -/
def vstep8 (a : ℚ) (B : Nat → ℚ) (bbase cbase j : Nat) (C : Nat → ℚ) : Nat → ℚ :=
  loopUp (fun l Cs => upd Cs (cbase + (j + l)) (C (cbase + (j + l)) + a * B (bbase + (j + l)))) 8 C

/-- The shared inner-row pattern of gemm_blocked.cpp lines 33-45 and
gemm_packed.cpp lines 71-84: starting from column `jj` over a width of `W`
columns, run `W / 8` eight-wide vector steps
(`for (j = jj; j <= jMax - 8; j += 8)`) followed by a scalar tail of `W % 8`
elements (`for (; j < jMax; ++j) C[...] += a * B[...]`). `bbase` is the
offset of `B` row `k` and `cbase` the offset of `C` row `i`. -/
def jline (a : ℚ) (B : Nat → ℚ) (bbase cbase jj W : Nat) (C : Nat → ℚ) : Nat → ℚ :=
  let Cv := loopUp (fun q Cs => vstep8 a B bbase cbase (jj + q * 8) Cs) (W / 8) C
  loopUp (fun r Cs =>
    addAt Cs (cbase + (jj + ((W / 8) * 8 + r))) (a * B (bbase + (jj + ((W / 8) * 8 + r)))))
    (W % 8) Cv

/-- src/cpu/gemm_blocked.cpp lines 6-50: tiles the output into
`nI * nJ` tiles (`nI = (M+MB-1)/MB`, `nJ = (N+NB-1)/NB`), flattens the tile
index `t` as `ti = t / nJ`, `tj = t % nJ`, clamps tile extents at the matrix
edge, iterates the depth dimension in chunks of `KB`
(`for (kk = 0; kk < K; kk += KB)`, hence `(K+KB-1)/KB` chunks for `KB > 0`),
and runs the vectorized row update `jline` per `(i, k)`. -/
def gemm_blocked (M N K : Nat) (A B C : Nat → ℚ) (lda ldb ldc : Nat) (bs : Block) : Nat → ℚ :=
  let MB := bs.MB
  let NB := bs.NB
  let KB := bs.KB
  let nJ := (N + NB - 1) / NB
  let nTiles := ((M + MB - 1) / MB) * nJ
  loopUp (fun t Ct =>
    let ii := (t / nJ) * MB
    let iMax := min (ii + MB) M
    let jj := (t % nJ) * NB
    let jMax := min (jj + NB) N
    loopUp (fun c Cc =>
      let kk := c * KB
      let kMax := min (kk + KB) K
      loopUp (fun di Ci =>
        let i := ii + di
        loopUp (fun dk Ck =>
          let k := kk + dk
          jline (A (i * lda + k)) B (k * ldb) (i * ldc) jj (jMax - jj) Ck)
          (kMax - kk) Ci)
        (iMax - ii) Cc)
      ((K + KB - 1) / KB) Ct)
    nTiles C

/-- src/cpu/gemm_packed.cpp lines 43-49: copy an `MB x KB` sub-block of `A`
(at element offset `aoff`, row stride `lda`) into the dense buffer:
`A_packed[i*KB + k] = A[i*lda + k]`. -/
def pack_A_panel (MB KB : Nat) (A : Nat → ℚ) (aoff lda : Nat) (Apk : Nat → ℚ) : Nat → ℚ :=
  loopUp (fun i buf =>
    loopUp (fun k buf2 => upd buf2 (i * KB + k) (A (aoff + i * lda + k))) KB buf) MB Apk

/-- src/cpu/gemm_packed.cpp lines 52-58: copy a `KB x NB` sub-block of `B`
(at element offset `boff`, row stride `ldb`) into the dense buffer:
`B_packed[k*NB + j] = B[k*ldb + j]`. -/
def pack_B_panel (KB NB : Nat) (B : Nat → ℚ) (boff ldb : Nat) (Bpk : Nat → ℚ) : Nat → ℚ :=
  loopUp (fun k buf =>
    loopUp (fun j buf2 => upd buf2 (k * NB + j) (B (boff + k * ldb + j))) NB buf) KB Bpk

/-- src/cpu/gemm_packed.cpp lines 61-86: multiply the packed `MB x KB` panel
by the packed `KB x NB` panel into the `C` tile at element offset `coff`,
using the vectorized row update (lines 70-83) per `(i, k)`. -/
def micro_kernel_packed (MB NB KB : Nat) (Apk Bpk : Nat → ℚ) (C : Nat → ℚ)
    (coff ldc : Nat) : Nat → ℚ :=
  loopUp (fun i Ci =>
    loopUp (fun k Ck =>
      jline (Apk (i * KB + k)) Bpk (k * NB) (coff + i * ldc) 0 NB Ck) KB Ci) MB C

/-- src/cpu/gemm_packed.cpp lines 88-138: the same tiling as gemm_blocked,
but every depth chunk first packs the `A` and `B` sub-blocks into the
thread-private panels and then runs `micro_kernel_packed` on them.
`Apk0`/`Bpk0` model the (uninitialized) contents of the freshly allocated
panel buffers; the state threaded through the loops is
`(C, A_packed, B_packed)`. -/
def gemm_packed (M N K : Nat) (A B C : Nat → ℚ) (lda ldb ldc : Nat) (bs : Block)
    (Apk0 Bpk0 : Nat → ℚ) : Nat → ℚ :=
  let MB := bs.MB
  let NB := bs.NB
  let KB := bs.KB
  let nJ := (N + NB - 1) / NB
  let nTiles := ((M + MB - 1) / MB) * nJ
  (loopUp (fun t s =>
    let ii := (t / nJ) * MB
    let iMax := min (ii + MB) M
    let jj := (t % nJ) * NB
    let jMax := min (jj + NB) N
    let aMB := iMax - ii
    let aNB := jMax - jj
    loopUp (fun c s2 =>
      let kk := c * KB
      let kMax := min (kk + KB) K
      let aKB := kMax - kk
      let Apk := pack_A_panel aMB aKB A (ii * lda + kk) lda s2.2.1
      let Bpk := pack_B_panel aKB aNB B (kk * ldb + jj) ldb s2.2.2
      (micro_kernel_packed aMB aNB aKB Apk Bpk s2.1 (ii * ldc + jj) ldc, Apk, Bpk))
      ((K + KB - 1) / KB) s)
    nTiles (C, Apk0, Bpk0)).1

/-- src/cpu/gemm_mk_avx2.cpp lines 40-46: identical copy loop to
`pack_A_panel` of gemm_packed.cpp. -/
def pack_A_panel_mk (MB KB : Nat) (A : Nat → ℚ) (aoff lda : Nat) (Apk : Nat → ℚ) : Nat → ℚ :=
  loopUp (fun i buf =>
    loopUp (fun k buf2 => upd buf2 (i * KB + k) (A (aoff + i * lda + k))) KB buf) MB Apk

/-- src/cpu/gemm_mk_avx2.cpp lines 49-55: identical copy loop to
`pack_B_panel` of gemm_packed.cpp. -/
def pack_B_panel_mk (KB NB : Nat) (B : Nat → ℚ) (boff ldb : Nat) (Bpk : Nat → ℚ) : Nat → ℚ :=
  loopUp (fun k buf =>
    loopUp (fun j buf2 => upd buf2 (k * NB + j) (B (boff + k * ldb + j))) NB buf) KB Bpk

/-- src/cpu/microkernels/mk_avx2.cpp lines 158-306 (`mk8x8_avx2_strided`):
loads the 8 output rows at offsets `coff + r*ldc` into vector accumulators,
runs the depth loop (the source unrolls by 4 with a remainder loop, visiting
`k = 0, 1, ..., KC-1` in increasing order; the per-lane arithmetic sequence
is the same, so it is embedded as one loop), reading the broadcast scalars
`A[r*KC + k]` and the 8-wide rows `B[k*ldb + j]`, and finally stores the 8
accumulator rows back. -/
def mk8x8_avx2_strided (KC : Nat) (A B : Nat → ℚ) (ldb : Nat) (C : Nat → ℚ)
    (coff ldc : Nat) : Nat → ℚ :=
  let acc := loopUp (fun k acc => fun r j => acc r j + A (r * KC + k) * B (k * ldb + j))
    KC (fun r j => C (coff + r * ldc + j))
  loopUp (fun r Cs => loopUp (fun j Cs2 => upd Cs2 (coff + r * ldc + j) (acc r j)) 8 Cs) 8 C

/-- src/cpu/microkernels/mk_avx2.cpp lines 8-155 (`mk8x8_avx2`): the packed
variant; identical to the strided variant except that `B` rows are read at
the fixed packed pitch 8 (`B + k*8`) instead of `k*ldb`. -/
def mk8x8_avx2 (KC : Nat) (A B : Nat → ℚ) (C : Nat → ℚ) (coff ldc : Nat) : Nat → ℚ :=
  let acc := loopUp (fun k acc => fun r j => acc r j + A (r * KC + k) * B (k * 8 + j))
    KC (fun r j => C (coff + r * ldc + j))
  loopUp (fun r Cs => loopUp (fun j Cs2 => upd Cs2 (coff + r * ldc + j) (acc r j)) 8 Cs) 8 C

/-- src/cpu/microkernels/mk_avx2.cpp lines 309-326 (`mk_ref`): scalar
fallback over an `MR x NR` region with packed `B` pitch `NR`:
`for i { for k { a = A_p[i*KC+k]; for j { c_row[j] += a * b_row[j]; } } }`. -/
def mk_ref (MR NR KC : Nat) (Apk Bpk : Nat → ℚ) (C : Nat → ℚ) (coff ldc : Nat) : Nat → ℚ :=
  loopUp (fun i Ci =>
    loopUp (fun k Ck =>
      loopUp (fun j Cj =>
        addAt Cj (coff + i * ldc + j) (Apk (i * KC + k) * Bpk (k * NR + j))) NR Ck) KC Ci) MR C

/-- src/cpu/microkernels/mk_avx2.cpp lines 329-347 (`mk_ref_strided`): the
scalar fallback with caller-supplied `B` row stride `ldb`. -/
def mk_ref_strided (MR NR KC : Nat) (Apk Bpk : Nat → ℚ) (ldb : Nat) (C : Nat → ℚ)
    (coff ldc : Nat) : Nat → ℚ :=
  loopUp (fun i Ci =>
    loopUp (fun k Ck =>
      loopUp (fun j Cj =>
        addAt Cj (coff + i * ldc + j) (Apk (i * KC + k) * Bpk (k * ldb + j))) NR Ck) KC Ci) MR C

/-- src/cpu/gemm_mk_avx2.cpp lines 102-117: the kernel selection inside the
micro-tile loops: `if (mr == 8 && nr == 8)` use the AVX2 kernel on the
sub-panels, else the scalar reference kernel on the `mr x nr` edge tile. -/
def mk_dispatch (mr nr KC : Nat) (Ablk Bblk : Nat → ℚ) (ldb : Nat) (C : Nat → ℚ)
    (coff ldc : Nat) : Nat → ℚ :=
  if mr = 8 ∧ nr = 8 then mk8x8_avx2_strided KC Ablk Bblk ldb C coff ldc
  else mk_ref_strided mr nr KC Ablk Bblk ldb C coff ldc

/-- src/cpu/gemm_mk_avx2.cpp lines 57-126: the same tiling and packing as
gemm_packed, then per depth chunk the tile is swept in 8x8 micro-tiles
(`for (i0 = 0; i0 < actual_MB; i0 += 8)`, so `(aMB+7)/8` steps with
`i0 = q*8`, and likewise for `j0`), with `mr = min(8, actual_MB - i0)`,
`nr = min(8, actual_NB - j0)` and the kernel choice of `mk_dispatch` on
`Ablk = A_packed + i0*actual_KB`, `Bblk = B_packed + j0`, `ldb = actual_NB`,
`Cblk = C + (ii+i0)*ldc + (jj+j0)`. -/
def gemm_mk_avx2 (M N K : Nat) (A B C : Nat → ℚ) (lda ldb ldc : Nat) (bs : Block)
    (Apk0 Bpk0 : Nat → ℚ) : Nat → ℚ :=
  let MB := bs.MB
  let NB := bs.NB
  let KB := bs.KB
  let nJ := (N + NB - 1) / NB
  let nTiles := ((M + MB - 1) / MB) * nJ
  (loopUp (fun t s =>
    let ii := (t / nJ) * MB
    let iMax := min (ii + MB) M
    let jj := (t % nJ) * NB
    let jMax := min (jj + NB) N
    let aMB := iMax - ii
    let aNB := jMax - jj
    loopUp (fun c s2 =>
      let kk := c * KB
      let kMax := min (kk + KB) K
      let aKB := kMax - kk
      let Apk := pack_A_panel_mk aMB aKB A (ii * lda + kk) lda s2.2.1
      let Bpk := pack_B_panel_mk aKB aNB B (kk * ldb + jj) ldb s2.2.2
      (loopUp (fun q Cq =>
        loopUp (fun p Cp =>
          let mr := min 8 (aMB - q * 8)
          let nr := min 8 (aNB - p * 8)
          mk_dispatch mr nr aKB (shift Apk (q * 8 * aKB)) (shift Bpk (p * 8)) aNB Cp
            ((ii + q * 8) * ldc + (jj + p * 8)) ldc)
          ((aNB + 7) / 8) Cq)
        ((aMB + 7) / 8) s2.1, Apk, Bpk))
      ((K + KB - 1) / KB) s)
    nTiles (C, Apk0, Bpk0)).1

/-- src/baselines/openblas.cpp lines 9-18: the external backend is a stub
that unconditionally throws before touching `C`; the throw is modelled as
`Except.error` with the source message. -/
def gemm_openblas (M N K : Nat) (A B C : Nat → ℚ) (lda ldb ldc : Nat) (bs : Block) :
    Except String (Nat → ℚ) :=
  Except.error "OpenBLAS not available - install via vcpkg install openblas:x64-windows"

/-- src/cpu/gemm_dispatcher.cpp lines 4-21: name-based dispatch; an
unrecognized name throws (modelled as `Except.error`) without invoking any
implementation. -/
def run_gemm (impl : String) (M N K : Nat) (A B C : Nat → ℚ) (lda ldb ldc : Nat)
    (bs : Block) (Apk0 Bpk0 : Nat → ℚ) : Except String (Nat → ℚ) :=
  if impl = "naive" then Except.ok (gemm_naive M N K A B C lda ldb ldc)
  else if impl = "blocked" then Except.ok (gemm_blocked M N K A B C lda ldb ldc bs)
  else if impl = "packed" then Except.ok (gemm_packed M N K A B C lda ldb ldc bs Apk0 Bpk0)
  else if impl = "mk_avx2" then Except.ok (gemm_mk_avx2 M N K A B C lda ldb ldc bs Apk0 Bpk0)
  else if impl = "openblas" then gemm_openblas M N K A B C lda ldb ldc bs
  else Except.error ("Unknown implementation: " ++ impl)

/-- The mathematical increment every implementation adds to `C`: cell
`i*ldc + j` (for `i < M`, `j < N`) receives `A[i*lda+k] * B[k*ldb+j]` summed
over `k < K`; expressed per observed cell `n` as a sum of `ind` terms. -/
def gemmDelta (M N K : Nat) (A B : Nat → ℚ) (lda ldb ldc : Nat) (n : Nat) : ℚ :=
  ∑ i ∈ Finset.range M, ∑ k ∈ Finset.range K, ∑ j ∈ Finset.range N,
    ind (i * ldc + j) (A (i * lda + k) * B (k * ldb + j)) n

/-- Point update of an `Int`-indexed flat memory (for the `Int` model). -/
def updZ (C : Int → ℚ) (p : Int) (v : ℚ) : Int → ℚ :=
  fun n => if n = p then v else C n

/-- Faithful `Int` model of src/cpu/gemm_blocked.cpp lines 6-50, used to
evaluate the source on non-positive block sizes (C++ `int` division and
modulus truncate toward zero, i.e. `Int.tdiv` / `Int.tmod`). Memory is
indexed by `Int` because pointer offsets can go negative. Loop iteration
counts are the number of iterations the C++ loop performs:
- the tile loop runs `nTiles.toNat` times (`for (t = 0; t < nTiles; ++t)`);
- the depth loop `for (kk = 0; kk < K; kk += KB)` runs `⌈K/KB⌉` times when
  `KB > 0` (for `KB ≤ 0` with `K > 0` the C++ loop never terminates; that
  case is totalized to 0 iterations here and is not relied on below);
- the row loop `for (i = ii; i < iMax; ++i)` runs `(iMax - ii).toNat` times;
- the vectorized column loop and its tail run `(jMax - jj).toNat / 8` and
  `(jMax - jj).toNat % 8` times, matching `j <= jMax - 8` stepping by 8 and
  the scalar remainder. The 8 lanes of each vector step are embedded as in
  `vstep8`. -/
def gemm_blocked_int (M N K : Int) (A B C : Int → ℚ) (lda ldb ldc : Int)
    (MB NB KB : Int) : Int → ℚ :=
  let nI := (M + MB - 1).tdiv MB
  let nJ := (N + NB - 1).tdiv NB
  let nTiles := nI * nJ
  let nChunks : Nat := if 0 < KB then ((K + KB - 1).tdiv KB).toNat else 0
  loopUp (fun tn Ct =>
    let t : Int := tn
    let ii := (t.tdiv nJ) * MB
    let iMax := min (ii + MB) M
    let jj := (t.tmod nJ) * NB
    let jMax := min (jj + NB) N
    let W := (jMax - jj).toNat
    loopUp (fun c Cc =>
      let kk : Int := (c : Int) * KB
      let kMax := min (kk + KB) K
      loopUp (fun di Ci =>
        let i := ii + di
        loopUp (fun dk Ck =>
          let k := kk + dk
          let a := A (i * lda + k)
          let Cv := loopUp (fun q Cs =>
            loopUp (fun l Cs2 =>
              let j := jj + (q : Int) * 8 + l
              updZ Cs2 (i * ldc + j) (Cs (i * ldc + j) + a * B (k * ldb + j))) 8 Cs) (W / 8) Ck
          loopUp (fun r Cs =>
            let j := jj + ((W / 8) * 8 + r : Nat)
            updZ Cs (i * ldc + j) (Cs (i * ldc + j) + a * B (k * ldb + j))) (W % 8) Cv)
          (kMax - kk).toNat Ci)
        (iMax - ii).toNat Cc)
      nChunks Ct)
    nTiles.toNat C

/-- The clamped output rectangle of flattened tile `t` in the tiling of
gemm_blocked.cpp lines 14-24 / gemm_mk_avx2.cpp lines 65-84:
rows `[ (t/nJ)*MB, min((t/nJ)*MB + MB, M) )` times
columns `[ (t%nJ)*NB, min((t%nJ)*NB + NB, N) )`. -/
def tileRect (M N MB NB t : Nat) : Finset (Nat × Nat) :=
  let nJ := (N + NB - 1) / NB
  (Finset.Ico ((t / nJ) * MB) (min ((t / nJ) * MB + MB) M)) ×ˢ
    (Finset.Ico ((t % nJ) * NB) (min ((t % nJ) * NB + NB) N))

/-! ## Framework lemmas: increments, stores, loop folds -/

theorem upd_eval (C : Nat → ℚ) (p : Nat) (v : ℚ) (n : Nat) :
    upd C p v n = if n = p then v else C n := rfl

theorem addAt_eval (C : Nat → ℚ) (p : Nat) (v : ℚ) (n : Nat) :
    addAt C p v n = C n + ind p v n := by
  unfold addAt upd ind
  by_cases h : n = p
  · subst h; simp
  · simp [h]

theorem loopUp_zero {α : Type} (body : Nat → α → α) (s : α) : loopUp body 0 s = s := rfl

theorem loopUp_succ {α : Type} (body : Nat → α → α) (m : Nat) (s : α) :
    loopUp body (m + 1) s = body m (loopUp body m s) := rfl

theorem loopUp_congr {α : Type} (body body2 : Nat → α → α) (m : Nat)
    (h : ∀ i, i < m → ∀ s, body i s = body2 i s) :
    ∀ s, loopUp body m s = loopUp body2 m s := by
  induction m with
  | zero => intro s; rfl
  | succ m ih =>
    intro s
    rw [loopUp_succ, loopUp_succ, ih (fun i hi => h i (by omega)), h m (by omega)]

theorem loopUp_incr (body : Nat → (Nat → ℚ) → (Nat → ℚ)) (δ : Nat → Nat → ℚ) (m : Nat)
    (h : ∀ i, i < m → ∀ C n, body i C n = C n + δ i n) :
    ∀ C n, loopUp body m C n = C n + ∑ i ∈ Finset.range m, δ i n := by
  induction m with
  | zero => intro C n; simp [loopUp]
  | succ m ih =>
    intro C n
    rw [loopUp_succ, h m (by omega), ih (fun i hi => h i (by omega)), Finset.sum_range_succ]
    ring

theorem loopUp_fst_incr {β : Type} (body : Nat → ((Nat → ℚ) × β) → ((Nat → ℚ) × β))
    (δ : Nat → Nat → ℚ) (m : Nat)
    (h : ∀ i, i < m → ∀ s n, (body i s).1 n = s.1 n + δ i n) :
    ∀ s n, (loopUp body m s).1 n = s.1 n + ∑ i ∈ Finset.range m, δ i n := by
  induction m with
  | zero => intro s n; simp [loopUp]
  | succ m ih =>
    intro s n
    rw [loopUp_succ, h m (by omega), ih (fun i hi => h i (by omega)), Finset.sum_range_succ]
    ring

theorem rowStore_frame (q : Nat → Nat) (val : Nat → ℚ) (m : Nat) (S : Nat → ℚ) (n : Nat)
    (hn : ∀ j, j < m → n ≠ q j) :
    loopUp (fun j s => upd s (q j) (val j)) m S n = S n := by
  induction m with
  | zero => rfl
  | succ m ih =>
    simp only [loopUp_succ, upd]
    rw [if_neg (hn m (by omega))]
    exact ih (fun j hj => hn j (by omega))

theorem rowStore_value (q : Nat → Nat) (val : Nat → ℚ) (m : Nat) (S : Nat → ℚ) (j0 : Nat)
    (hj0 : j0 < m) (hinj : ∀ j, j < m → q j = q j0 → j = j0) :
    loopUp (fun j s => upd s (q j) (val j)) m S (q j0) = val j0 := by
  induction m with
  | zero => omega
  | succ m ih =>
    simp only [loopUp_succ, upd]
    by_cases h : j0 = m
    · subst h; simp
    · have hne : q j0 ≠ q m := fun he => h (hinj m (by omega) he.symm ▸ rfl)
      rw [if_neg hne]
      exact ih (by omega) (fun j hj hq => hinj j (by omega) hq)

theorem sum_ind_miss (m : Nat) (p : Nat → Nat) (v : Nat → ℚ) (n : Nat)
    (h : ∀ l, l < m → n ≠ p l) :
    ∑ l ∈ Finset.range m, ind (p l) (v l) n = 0 := by
  apply Finset.sum_eq_zero
  intro l hl
  rw [Finset.mem_range] at hl
  simp [ind, h l hl]

theorem sum_ind_hit (m : Nat) (p : Nat → Nat) (v : Nat → ℚ) (l0 : Nat) (h0 : l0 < m)
    (hinj : ∀ l, l < m → p l = p l0 → l = l0) :
    ∑ l ∈ Finset.range m, ind (p l) (v l) (p l0) = v l0 := by
  rw [Finset.sum_eq_single l0]
  · simp [ind]
  · intro l hl hne
    rw [Finset.mem_range] at hl
    have hpl : p l0 ≠ p l := fun he => hne (hinj l hl he.symm)
    simp [ind, hpl]
  · intro hnot
    exact absurd (Finset.mem_range.mpr h0) hnot

theorem gridStore_frame (p : Nat → Nat → Nat) (v : Nat → Nat → ℚ) (m1 m2 : Nat)
    (S : Nat → ℚ) (n : Nat) (hn : ∀ r, r < m1 → ∀ j, j < m2 → n ≠ p r j) :
    loopUp (fun r s => loopUp (fun j s2 => upd s2 (p r j) (v r j)) m2 s) m1 S n = S n := by
  induction m1 with
  | zero => rfl
  | succ m ih =>
    rw [loopUp_succ]
    show loopUp (fun j s2 => upd s2 (p m j) (v m j)) m2
      (loopUp (fun r s => loopUp (fun j s2 => upd s2 (p r j) (v r j)) m2 s) m S) n = S n
    rw [rowStore_frame (p m) (v m) m2 _ n (fun j hj => hn m (by omega) j hj)]
    exact ih (fun r hr j hj => hn r (by omega) j hj)

theorem gridStore_value (p : Nat → Nat → Nat) (v : Nat → Nat → ℚ) (m1 m2 : Nat) (S : Nat → ℚ)
    (r0 j0 : Nat) (hr0 : r0 < m1) (hj0 : j0 < m2)
    (hinj : ∀ r, r < m1 → ∀ j, j < m2 → p r j = p r0 j0 → r = r0 ∧ j = j0) :
    loopUp (fun r s => loopUp (fun j s2 => upd s2 (p r j) (v r j)) m2 s) m1 S (p r0 j0)
      = v r0 j0 := by
  induction m1 with
  | zero => omega
  | succ m ih =>
    rw [loopUp_succ]
    show loopUp (fun j s2 => upd s2 (p m j) (v m j)) m2
      (loopUp (fun r s => loopUp (fun j s2 => upd s2 (p r j) (v r j)) m2 s) m S) (p r0 j0)
      = v r0 j0
    by_cases h : r0 = m
    · subst h
      exact rowStore_value (p r0) (v r0) m2 _ j0 hj0
        (fun j hj he => (hinj r0 (by omega) j hj he).2)
    · have hfr : ∀ j, j < m2 → p r0 j0 ≠ p m j := by
        intro j hj he
        exact h ((hinj m (by omega) j hj he.symm).1.symm)
      rw [rowStore_frame (p m) (v m) m2 _ (p r0 j0) hfr]
      exact ih (by omega) (fun r hr j hj he => hinj r (by omega) j hj he)

/-- Splitting a summation range into `W / b` full chunks of size `b` followed
by a tail of `W % b` elements: the vectorized inner loop plus scalar tail. -/
theorem sum_vec_tail (b : Nat) (hb : 0 < b) :
    ∀ W : Nat, ∀ f : Nat → ℚ,
      ((∑ q ∈ Finset.range (W / b), ∑ r ∈ Finset.range b, f (q * b + r)) +
        ∑ r ∈ Finset.range (W % b), f ((W / b) * b + r)) = ∑ x ∈ Finset.range W, f x := by
  intro W
  induction W using Nat.strong_induction_on with
  | _ W ih =>
    intro f
    by_cases hW : W < b
    · rw [Nat.div_eq_of_lt hW, Nat.mod_eq_of_lt hW]
      simp
    · push_neg at hW
      have hW1 : W = b + (W - b) := by omega
      have hdiv : W / b = (W - b) / b + 1 := by
        conv_lhs => rw [show W = (W - b) + b by omega]
        exact Nat.add_div_right _ hb
      have hmod : W % b = (W - b) % b := by
        conv_lhs => rw [hW1]
        exact Nat.add_mod_left b (W - b)
      have hsplit : ∑ x ∈ Finset.range W, f x
          = (∑ x ∈ Finset.range b, f x) + ∑ x ∈ Finset.range (W - b), f (b + x) := by
        conv_lhs => rw [hW1]
        exact Finset.sum_range_add f b (W - b)
      have hIH := ih (W - b) (by omega) (fun x => f (b + x))
      rw [hsplit, hdiv, hmod, Finset.sum_range_succ']
      have c0 : (∑ r ∈ Finset.range b, f (0 * b + r)) = ∑ x ∈ Finset.range b, f x := by
        apply Finset.sum_congr rfl
        intro r _
        congr 1
        ring
      have c1 : (∑ q ∈ Finset.range ((W - b) / b), ∑ r ∈ Finset.range b, f ((q + 1) * b + r))
          = ∑ q ∈ Finset.range ((W - b) / b), ∑ r ∈ Finset.range b, f (b + (q * b + r)) := by
        apply Finset.sum_congr rfl
        intro q _
        apply Finset.sum_congr rfl
        intro r _
        congr 1
        ring
      have c2 : (∑ r ∈ Finset.range ((W - b) % b), f (((W - b) / b + 1) * b + r))
          = ∑ r ∈ Finset.range ((W - b) % b), f (b + ((W - b) / b * b + r)) := by
        apply Finset.sum_congr rfl
        intro r _
        congr 1
        ring
      rw [c0, c1, c2, ← hIH]
      ring

/-- Splitting a summation range into `⌈W / b⌉` chunks, each clamped at the
boundary: the tiling decomposition `min (start + size) W - start`. -/
theorem sum_chunks (b : Nat) (hb : 0 < b) :
    ∀ W : Nat, ∀ f : Nat → ℚ,
      (∑ q ∈ Finset.range ((W + b - 1) / b),
        ∑ r ∈ Finset.range (min (q * b + b) W - q * b), f (q * b + r))
        = ∑ x ∈ Finset.range W, f x := by
  intro W
  induction W using Nat.strong_induction_on with
  | _ W ih =>
    intro f
    by_cases hW0 : W = 0
    · subst hW0
      rw [show (0 + b - 1) / b = 0 from Nat.div_eq_of_lt (by omega)]
      simp
    by_cases hW : W ≤ b
    · have hc : (W + b - 1) / b = 1 := by
        apply Nat.div_eq_of_lt_le <;> omega
      rw [hc, Finset.sum_range_one]
      have h1 : min (0 * b + b) W - 0 * b = W := by omega
      rw [h1]
      apply Finset.sum_congr rfl
      intro r _
      congr 1
      ring
    · push_neg at hW
      have hsplit : ∑ x ∈ Finset.range W, f x
          = (∑ x ∈ Finset.range b, f x) + ∑ x ∈ Finset.range (W - b), f (b + x) := by
        conv_lhs => rw [show W = b + (W - b) by omega]
        exact Finset.sum_range_add f b (W - b)
      have hdiv : (W + b - 1) / b = ((W - b) + b - 1) / b + 1 := by
        conv_lhs => rw [show W + b - 1 = ((W - b) + b - 1) + b by omega]
        exact Nat.add_div_right _ hb
      have hIH := ih (W - b) (by omega) (fun x => f (b + x))
      rw [hsplit, hdiv, Finset.sum_range_succ']
      have c0 : (∑ r ∈ Finset.range (min (0 * b + b) W - 0 * b), f (0 * b + r))
          = ∑ x ∈ Finset.range b, f x := by
        have h1 : min (0 * b + b) W - 0 * b = b := by omega
        rw [h1]
        apply Finset.sum_congr rfl
        intro r _
        congr 1
        ring
      have c1 : (∑ q ∈ Finset.range (((W - b) + b - 1) / b),
            ∑ r ∈ Finset.range (min ((q + 1) * b + b) W - (q + 1) * b), f ((q + 1) * b + r))
          = ∑ q ∈ Finset.range (((W - b) + b - 1) / b),
            ∑ r ∈ Finset.range (min (q * b + b) (W - b) - q * b), f (b + (q * b + r)) := by
        apply Finset.sum_congr rfl
        intro q _
        have ec : min ((q + 1) * b + b) W - (q + 1) * b
            = min (q * b + b) (W - b) - q * b := by
          have e1 : (q + 1) * b = q * b + b := by ring
          rw [e1]
          generalize q * b = x
          omega
        rw [ec]
        apply Finset.sum_congr rfl
        intro r _
        congr 1
        ring
      rw [c0, c1, ← hIH]
      ring

/-- Flattening a two-dimensional tile index space into a single range, as the
schedulers do with `ti = t / nJ`, `tj = t % nJ`. -/
theorem sum_flatten (nI nJ : Nat) (f : Nat → Nat → ℚ) :
    ∑ t ∈ Finset.range (nI * nJ), f (t / nJ) (t % nJ)
      = ∑ a ∈ Finset.range nI, ∑ b2 ∈ Finset.range nJ, f a b2 := by
  by_cases hJ : nJ = 0
  · subst hJ; simp
  induction nI with
  | zero => simp
  | succ m ih =>
    rw [show (m + 1) * nJ = m * nJ + nJ by ring, Finset.sum_range_add, ih,
      Finset.sum_range_succ]
    congr 1
    apply Finset.sum_congr rfl
    intro r hr
    rw [Finset.mem_range] at hr
    have hd : (m * nJ + r) / nJ = m := by
      rw [show m * nJ + r = r + nJ * m by ring, Nat.add_mul_div_left _ _ (by omega),
        Nat.div_eq_of_lt hr]
      omega
    have hm : (m * nJ + r) % nJ = r := by
      rw [show m * nJ + r = r + nJ * m by ring, Nat.add_mul_mod_self_left,
        Nat.mod_eq_of_lt hr]
    rw [hd, hm]

/-! ## Index injectivity -/

theorem rowcol_inj (ld r1 j1 r2 j2 : Nat) (h1 : j1 < ld) (h2 : j2 < ld)
    (he : r1 * ld + j1 = r2 * ld + j2) : r1 = r2 ∧ j1 = j2 := by
  have e1 : (r1 * ld + j1) / ld = r1 := by
    rw [show r1 * ld + j1 = j1 + ld * r1 by ring, Nat.add_mul_div_left _ _ (by omega),
      Nat.div_eq_of_lt h1]
    omega
  have e2 : (r2 * ld + j2) / ld = r2 := by
    rw [show r2 * ld + j2 = j2 + ld * r2 by ring, Nat.add_mul_div_left _ _ (by omega),
      Nat.div_eq_of_lt h2]
    omega
  rw [he, e2] at e1
  refine ⟨e1.symm, ?_⟩
  subst e1
  exact Nat.add_left_cancel he

theorem cell_inj (coff ld r1 j1 r2 j2 : Nat) (h1 : j1 < ld) (h2 : j2 < ld)
    (he : coff + r1 * ld + j1 = coff + r2 * ld + j2) : r1 = r2 ∧ j1 = j2 := by
  apply rowcol_inj ld r1 j1 r2 j2 h1 h2
  have h := he
  generalize r1 * ld = x1 at h ⊢
  generalize r2 * ld = x2 at h ⊢
  omega

/-! ## Vector step and row-line deltas -/

theorem vstep8_delta (a : ℚ) (B : Nat → ℚ) (bbase cbase j : Nat) (C : Nat → ℚ) (n : Nat) :
    vstep8 a B bbase cbase j C n
      = C n + ∑ l ∈ Finset.range 8, ind (cbase + (j + l)) (a * B (bbase + (j + l))) n := by
  unfold vstep8
  by_cases h : ∃ l, l < 8 ∧ n = cbase + (j + l)
  · obtain ⟨l0, hl0, hn⟩ := h
    subst hn
    have hinj : ∀ l, l < 8 → cbase + (j + l) = cbase + (j + l0) → l = l0 := by
      intro l _ he
      omega
    have h1 : loopUp (fun l Cs => upd Cs (cbase + (j + l))
          (C (cbase + (j + l)) + a * B (bbase + (j + l)))) 8 C (cbase + (j + l0))
        = C (cbase + (j + l0)) + a * B (bbase + (j + l0)) :=
      rowStore_value (fun l => cbase + (j + l))
        (fun l => C (cbase + (j + l)) + a * B (bbase + (j + l))) 8 C l0 hl0 hinj
    have h2 : (∑ l ∈ Finset.range 8, ind (cbase + (j + l)) (a * B (bbase + (j + l)))
          (cbase + (j + l0))) = a * B (bbase + (j + l0)) :=
      sum_ind_hit 8 (fun l => cbase + (j + l)) (fun l => a * B (bbase + (j + l))) l0 hl0 hinj
    rw [h1, h2]
  · push_neg at h
    have hmiss : ∀ l, l < 8 → n ≠ cbase + (j + l) := fun l hl => h l hl
    have h1 : loopUp (fun l Cs => upd Cs (cbase + (j + l))
          (C (cbase + (j + l)) + a * B (bbase + (j + l)))) 8 C n = C n :=
      rowStore_frame (fun l => cbase + (j + l))
        (fun l => C (cbase + (j + l)) + a * B (bbase + (j + l))) 8 C n hmiss
    have h2 : (∑ l ∈ Finset.range 8, ind (cbase + (j + l)) (a * B (bbase + (j + l))) n) = 0 :=
      sum_ind_miss 8 (fun l => cbase + (j + l)) (fun l => a * B (bbase + (j + l))) n hmiss
    rw [h1, h2]
    ring

theorem jline_delta (a : ℚ) (B : Nat → ℚ) (bbase cbase jj W : Nat) :
    ∀ C n, jline a B bbase cbase jj W C n
      = C n + ∑ dj ∈ Finset.range W,
          ind (cbase + (jj + dj)) (a * B (bbase + (jj + dj))) n := by
  intro C n
  simp only [jline]
  have htail : ∀ C2 : Nat → ℚ, ∀ n2, loopUp (fun r Cs =>
        addAt Cs (cbase + (jj + ((W / 8) * 8 + r)))
          (a * B (bbase + (jj + ((W / 8) * 8 + r))))) (W % 8) C2 n2
      = C2 n2 + ∑ r ∈ Finset.range (W % 8),
          ind (cbase + (jj + ((W / 8) * 8 + r)))
            (a * B (bbase + (jj + ((W / 8) * 8 + r)))) n2 :=
    loopUp_incr _ _ (W % 8) (fun r _ C3 n3 => addAt_eval _ _ _ _)
  have hvec : ∀ C2 : Nat → ℚ, ∀ n2, loopUp (fun q Cs =>
        vstep8 a B bbase cbase (jj + q * 8) Cs) (W / 8) C2 n2
      = C2 n2 + ∑ q ∈ Finset.range (W / 8), ∑ l ∈ Finset.range 8,
          ind (cbase + ((jj + q * 8) + l)) (a * B (bbase + ((jj + q * 8) + l))) n2 :=
    loopUp_incr _ _ (W / 8) (fun q _ C3 n3 => vstep8_delta a B bbase cbase (jj + q * 8) C3 n3)
  rw [htail, hvec]
  have hc : (∑ q ∈ Finset.range (W / 8), ∑ l ∈ Finset.range 8,
        ind (cbase + ((jj + q * 8) + l)) (a * B (bbase + ((jj + q * 8) + l))) n)
      = ∑ q ∈ Finset.range (W / 8), ∑ l ∈ Finset.range 8,
        ind (cbase + (jj + (q * 8 + l))) (a * B (bbase + (jj + (q * 8 + l)))) n := by
    apply Finset.sum_congr rfl
    intro q _
    apply Finset.sum_congr rfl
    intro l _
    rw [Nat.add_assoc jj (q * 8) l]
  rw [hc]
  have hdecomp := sum_vec_tail 8 (by omega) W
    (fun x => ind (cbase + (jj + x)) (a * B (bbase + (jj + x))) n)
  rw [← hdecomp]
  ring

/-! ## Packing reads back the source values -/

theorem pack_A_panel_value (MB KB : Nat) (A : Nat → ℚ) (aoff lda : Nat) (Apk : Nat → ℚ)
    (i k : Nat) (hi : i < MB) (hk : k < KB) :
    pack_A_panel MB KB A aoff lda Apk (i * KB + k) = A (aoff + i * lda + k) := by
  unfold pack_A_panel
  exact gridStore_value (fun i k => i * KB + k) (fun i k => A (aoff + i * lda + k)) MB KB Apk
    i k hi hk (fun r hr j hj he => rowcol_inj KB r j i k hj hk he)

theorem pack_B_panel_value (KB NB : Nat) (B : Nat → ℚ) (boff ldb : Nat) (Bpk : Nat → ℚ)
    (k j : Nat) (hk : k < KB) (hj : j < NB) :
    pack_B_panel KB NB B boff ldb Bpk (k * NB + j) = B (boff + k * ldb + j) := by
  unfold pack_B_panel
  exact gridStore_value (fun k j => k * NB + j) (fun k j => B (boff + k * ldb + j)) KB NB Bpk
    k j hk hj (fun r hr j2 hj2 he => rowcol_inj NB r j2 k j hj2 hj he)

theorem pack_A_panel_mk_value (MB KB : Nat) (A : Nat → ℚ) (aoff lda : Nat) (Apk : Nat → ℚ)
    (i k : Nat) (hi : i < MB) (hk : k < KB) :
    pack_A_panel_mk MB KB A aoff lda Apk (i * KB + k) = A (aoff + i * lda + k) := by
  unfold pack_A_panel_mk
  exact gridStore_value (fun i k => i * KB + k) (fun i k => A (aoff + i * lda + k)) MB KB Apk
    i k hi hk (fun r hr j hj he => rowcol_inj KB r j i k hj hk he)

theorem pack_B_panel_mk_value (KB NB : Nat) (B : Nat → ℚ) (boff ldb : Nat) (Bpk : Nat → ℚ)
    (k j : Nat) (hk : k < KB) (hj : j < NB) :
    pack_B_panel_mk KB NB B boff ldb Bpk (k * NB + j) = B (boff + k * ldb + j) := by
  unfold pack_B_panel_mk
  exact gridStore_value (fun k j => k * NB + j) (fun k j => B (boff + k * ldb + j)) KB NB Bpk
    k j hk hj (fun r hr j2 hj2 he => rowcol_inj NB r j2 k j hj2 hj he)

/-! ## Micro-kernel deltas -/

theorem sum2_ind_hit (m1 m2 : Nat) (p : Nat → Nat → Nat) (v : Nat → Nat → ℚ)
    (r0 j0 : Nat) (hr0 : r0 < m1) (hj0 : j0 < m2)
    (hinj : ∀ r, r < m1 → ∀ j, j < m2 → p r j = p r0 j0 → r = r0 ∧ j = j0) :
    ∑ r ∈ Finset.range m1, ∑ j ∈ Finset.range m2, ind (p r j) (v r j) (p r0 j0) = v r0 j0 := by
  rw [Finset.sum_eq_single r0]
  · exact sum_ind_hit m2 (p r0) (v r0) j0 hj0 (fun j hj he => (hinj r0 hr0 j hj he).2)
  · intro r hr hne
    rw [Finset.mem_range] at hr
    apply sum_ind_miss
    intro j hj he
    exact hne (hinj r hr j hj he.symm).1
  · intro hnot
    exact absurd (Finset.mem_range.mpr hr0) hnot

theorem sum2_ind_miss (m1 m2 : Nat) (p : Nat → Nat → Nat) (v : Nat → Nat → ℚ) (n : Nat)
    (h : ∀ r, r < m1 → ∀ j, j < m2 → n ≠ p r j) :
    ∑ r ∈ Finset.range m1, ∑ j ∈ Finset.range m2, ind (p r j) (v r j) n = 0 := by
  apply Finset.sum_eq_zero
  intro r hr
  rw [Finset.mem_range] at hr
  exact sum_ind_miss m2 (p r) (v r) n (fun j hj => h r hr j hj)

theorem ind_sum_swap (m : Nat) (pp : Nat) (v : Nat → ℚ) (n : Nat) :
    ∑ k ∈ Finset.range m, ind pp (v k) n = ind pp (∑ k ∈ Finset.range m, v k) n := by
  unfold ind
  by_cases h : n = pp
  · simp [h]
  · simp [h]

theorem mk_ref_strided_delta (MR NR KC : Nat) (Apk Bpk : Nat → ℚ) (ldb coff ldc : Nat) :
    ∀ C n, mk_ref_strided MR NR KC Apk Bpk ldb C coff ldc n
      = C n + ∑ i ∈ Finset.range MR, ∑ k ∈ Finset.range KC, ∑ j ∈ Finset.range NR,
          ind (coff + i * ldc + j) (Apk (i * KC + k) * Bpk (k * ldb + j)) n := by
  intro C n
  simp only [mk_ref_strided]
  have hj : ∀ i k : Nat, ∀ C2 : Nat → ℚ, ∀ n2, loopUp (fun j Cj =>
        addAt Cj (coff + i * ldc + j) (Apk (i * KC + k) * Bpk (k * ldb + j))) NR C2 n2
      = C2 n2 + ∑ j ∈ Finset.range NR,
          ind (coff + i * ldc + j) (Apk (i * KC + k) * Bpk (k * ldb + j)) n2 :=
    fun i k => loopUp_incr _ _ NR (fun j _ C3 n3 => addAt_eval _ _ _ _)
  have hk : ∀ i : Nat, ∀ C2 : Nat → ℚ, ∀ n2, loopUp (fun k Ck =>
        loopUp (fun j Cj =>
          addAt Cj (coff + i * ldc + j) (Apk (i * KC + k) * Bpk (k * ldb + j))) NR Ck) KC C2 n2
      = C2 n2 + ∑ k ∈ Finset.range KC, ∑ j ∈ Finset.range NR,
          ind (coff + i * ldc + j) (Apk (i * KC + k) * Bpk (k * ldb + j)) n2 :=
    fun i => loopUp_incr _ _ KC (fun k _ C3 n3 => hj i k C3 n3)
  exact loopUp_incr _ _ MR (fun i _ C3 n3 => hk i C3 n3) C n

theorem mk8x8_acc_spec (KC : Nat) (A B : Nat → ℚ) (ldb : Nat) (C : Nat → ℚ)
    (coff ldc : Nat) :
    ∀ m r j, loopUp (fun k acc => fun r j => acc r j + A (r * KC + k) * B (k * ldb + j)) m
        (fun r j => C (coff + r * ldc + j)) r j
      = C (coff + r * ldc + j) + ∑ k ∈ Finset.range m, A (r * KC + k) * B (k * ldb + j) := by
  intro m
  induction m with
  | zero => intro r j; simp [loopUp]
  | succ m ih =>
    intro r j
    rw [loopUp_succ]
    show loopUp (fun k acc => fun r j => acc r j + A (r * KC + k) * B (k * ldb + j)) m
        (fun r j => C (coff + r * ldc + j)) r j + A (r * KC + m) * B (m * ldb + j) = _
    rw [ih r j, Finset.sum_range_succ]
    ring

theorem mk8x8_avx2_strided_delta (KC : Nat) (A B : Nat → ℚ) (ldb coff ldc : Nat)
    (hldc : 8 ≤ ldc) :
    ∀ C n, mk8x8_avx2_strided KC A B ldb C coff ldc n
      = C n + ∑ r ∈ Finset.range 8, ∑ j ∈ Finset.range 8,
          ind (coff + r * ldc + j)
            (∑ k ∈ Finset.range KC, A (r * KC + k) * B (k * ldb + j)) n := by
  intro C n
  simp only [mk8x8_avx2_strided]
  by_cases h : ∃ r, r < 8 ∧ ∃ j, j < 8 ∧ n = coff + r * ldc + j
  · obtain ⟨r0, hr0, j0, hj0, hn⟩ := h
    subst hn
    have hinj : ∀ r, r < 8 → ∀ j, j < 8 →
        coff + r * ldc + j = coff + r0 * ldc + j0 → r = r0 ∧ j = j0 :=
      fun r hr j hj he => cell_inj coff ldc r j r0 j0 (by omega) (by omega) he
    have h1 : loopUp (fun r Cs => loopUp (fun j Cs2 => upd Cs2 (coff + r * ldc + j)
          (loopUp (fun k acc => fun r j => acc r j + A (r * KC + k) * B (k * ldb + j)) KC
            (fun r j => C (coff + r * ldc + j)) r j)) 8 Cs) 8 C (coff + r0 * ldc + j0)
        = loopUp (fun k acc => fun r j => acc r j + A (r * KC + k) * B (k * ldb + j)) KC
            (fun r j => C (coff + r * ldc + j)) r0 j0 :=
      gridStore_value (fun r j => coff + r * ldc + j)
        (fun r j => loopUp (fun k acc => fun r j => acc r j + A (r * KC + k) * B (k * ldb + j))
          KC (fun r j => C (coff + r * ldc + j)) r j) 8 8 C r0 j0 hr0 hj0 hinj
    have h2 : (∑ r ∈ Finset.range 8, ∑ j ∈ Finset.range 8,
          ind (coff + r * ldc + j)
            (∑ k ∈ Finset.range KC, A (r * KC + k) * B (k * ldb + j))
            (coff + r0 * ldc + j0))
        = ∑ k ∈ Finset.range KC, A (r0 * KC + k) * B (k * ldb + j0) :=
      sum2_ind_hit 8 8 (fun r j => coff + r * ldc + j)
        (fun r j => ∑ k ∈ Finset.range KC, A (r * KC + k) * B (k * ldb + j)) r0 j0 hr0 hj0 hinj
    rw [h1, h2, mk8x8_acc_spec KC A B ldb C coff ldc KC r0 j0]
  · push_neg at h
    have hmiss : ∀ r, r < 8 → ∀ j, j < 8 → n ≠ coff + r * ldc + j := by
      intro r hr j hj
      exact (h r hr j hj)
    have h1 : loopUp (fun r Cs => loopUp (fun j Cs2 => upd Cs2 (coff + r * ldc + j)
          (loopUp (fun k acc => fun r j => acc r j + A (r * KC + k) * B (k * ldb + j)) KC
            (fun r j => C (coff + r * ldc + j)) r j)) 8 Cs) 8 C n = C n :=
      gridStore_frame (fun r j => coff + r * ldc + j)
        (fun r j => loopUp (fun k acc => fun r j => acc r j + A (r * KC + k) * B (k * ldb + j))
          KC (fun r j => C (coff + r * ldc + j)) r j) 8 8 C n hmiss
    have h2 : (∑ r ∈ Finset.range 8, ∑ j ∈ Finset.range 8,
          ind (coff + r * ldc + j)
            (∑ k ∈ Finset.range KC, A (r * KC + k) * B (k * ldb + j)) n) = 0 :=
      sum2_ind_miss 8 8 (fun r j => coff + r * ldc + j)
        (fun r j => ∑ k ∈ Finset.range KC, A (r * KC + k) * B (k * ldb + j)) n hmiss
    rw [h1, h2]
    ring

theorem mk_dispatch_delta (mr nr KC : Nat) (Ablk Bblk : Nat → ℚ) (ldb coff ldc : Nat)
    (hldc : mr = 8 → nr = 8 → 8 ≤ ldc) :
    ∀ C n, mk_dispatch mr nr KC Ablk Bblk ldb C coff ldc n
      = C n + ∑ r ∈ Finset.range mr, ∑ j ∈ Finset.range nr,
          ind (coff + r * ldc + j)
            (∑ k ∈ Finset.range KC, Ablk (r * KC + k) * Bblk (k * ldb + j)) n := by
  intro C n
  unfold mk_dispatch
  by_cases h : mr = 8 ∧ nr = 8
  · obtain ⟨h1, h2⟩ := h
    subst h1
    subst h2
    rw [if_pos ⟨rfl, rfl⟩]
    exact mk8x8_avx2_strided_delta KC Ablk Bblk ldb coff ldc (hldc rfl rfl) C n
  · rw [if_neg h, mk_ref_strided_delta mr nr KC Ablk Bblk ldb coff ldc C n]
    congr 1
    apply Finset.sum_congr rfl
    intro i _
    rw [Finset.sum_comm]
    apply Finset.sum_congr rfl
    intro j _
    exact ind_sum_swap KC (coff + i * ldc + j)
      (fun k => Ablk (i * KC + k) * Bblk (k * ldb + j)) n

theorem micro_kernel_packed_delta (MB NB KB : Nat) (Apk Bpk : Nat → ℚ) (coff ldc : Nat) :
    ∀ C n, micro_kernel_packed MB NB KB Apk Bpk C coff ldc n
      = C n + ∑ i ∈ Finset.range MB, ∑ k ∈ Finset.range KB, ∑ j ∈ Finset.range NB,
          ind (coff + i * ldc + j) (Apk (i * KB + k) * Bpk (k * NB + j)) n := by
  intro C n
  simp only [micro_kernel_packed]
  have hk : ∀ i : Nat, ∀ C2 : Nat → ℚ, ∀ n2, loopUp (fun k Ck =>
        jline (Apk (i * KB + k)) Bpk (k * NB) (coff + i * ldc) 0 NB Ck) KB C2 n2
      = C2 n2 + ∑ k ∈ Finset.range KB, ∑ j ∈ Finset.range NB,
          ind (coff + i * ldc + j) (Apk (i * KB + k) * Bpk (k * NB + j)) n2 := by
    intro i
    apply loopUp_incr
    intro k _ C3 n3
    rw [jline_delta (Apk (i * KB + k)) Bpk (k * NB) (coff + i * ldc) 0 NB C3 n3]
    congr 1
    apply Finset.sum_congr rfl
    intro j _
    rw [Nat.zero_add j]
  exact loopUp_incr _ _ MB (fun i _ C3 n3 => hk i C3 n3) C n

theorem gemm_naive_delta (M N K : Nat) (A B : Nat → ℚ) (lda ldb ldc : Nat) :
    ∀ C n, gemm_naive M N K A B C lda ldb ldc n
      = C n + gemmDelta M N K A B lda ldb ldc n := by
  intro C n
  simp only [gemm_naive, gemmDelta]
  have hj : ∀ i k : Nat, ∀ C2 : Nat → ℚ, ∀ n2, loopUp (fun j Cj =>
        addAt Cj (i * ldc + j) (A (i * lda + k) * B (k * ldb + j))) N C2 n2
      = C2 n2 + ∑ j ∈ Finset.range N,
          ind (i * ldc + j) (A (i * lda + k) * B (k * ldb + j)) n2 :=
    fun i k => loopUp_incr _ _ N (fun j _ C3 n3 => addAt_eval _ _ _ _)
  have hk : ∀ i : Nat, ∀ C2 : Nat → ℚ, ∀ n2, loopUp (fun k Ck =>
        loopUp (fun j Cj =>
          addAt Cj (i * ldc + j) (A (i * lda + k) * B (k * ldb + j))) N Ck) K C2 n2
      = C2 n2 + ∑ k ∈ Finset.range K, ∑ j ∈ Finset.range N,
          ind (i * ldc + j) (A (i * lda + k) * B (k * ldb + j)) n2 :=
    fun i => loopUp_incr _ _ K (fun k _ C3 n3 => hj i k C3 n3)
  exact loopUp_incr _ _ M (fun i _ C3 n3 => hk i C3 n3) C n

/-! ## The tiled iteration space is a reindexing of the full triple loop -/

theorem tiled_sum_eq (M N K MB NB KB : Nat) (hMB : 0 < MB) (hNB : 0 < NB) (hKB : 0 < KB)
    (g : Nat → Nat → Nat → ℚ) :
    (∑ t ∈ Finset.range (((M + MB - 1) / MB) * ((N + NB - 1) / NB)),
      ∑ c ∈ Finset.range ((K + KB - 1) / KB),
        ∑ i ∈ Finset.range (min ((t / ((N + NB - 1) / NB)) * MB + MB) M
            - (t / ((N + NB - 1) / NB)) * MB),
          ∑ k ∈ Finset.range (min (c * KB + KB) K - c * KB),
            ∑ j ∈ Finset.range (min ((t % ((N + NB - 1) / NB)) * NB + NB) N
                - (t % ((N + NB - 1) / NB)) * NB),
              g ((t / ((N + NB - 1) / NB)) * MB + i) (c * KB + k)
                ((t % ((N + NB - 1) / NB)) * NB + j))
      = ∑ i ∈ Finset.range M, ∑ k ∈ Finset.range K, ∑ j ∈ Finset.range N, g i k j := by
  have hflat : (∑ t ∈ Finset.range (((M + MB - 1) / MB) * ((N + NB - 1) / NB)),
      ∑ c ∈ Finset.range ((K + KB - 1) / KB),
        ∑ i ∈ Finset.range (min ((t / ((N + NB - 1) / NB)) * MB + MB) M
            - (t / ((N + NB - 1) / NB)) * MB),
          ∑ k ∈ Finset.range (min (c * KB + KB) K - c * KB),
            ∑ j ∈ Finset.range (min ((t % ((N + NB - 1) / NB)) * NB + NB) N
                - (t % ((N + NB - 1) / NB)) * NB),
              g ((t / ((N + NB - 1) / NB)) * MB + i) (c * KB + k)
                ((t % ((N + NB - 1) / NB)) * NB + j))
      = ∑ ti ∈ Finset.range ((M + MB - 1) / MB), ∑ tj ∈ Finset.range ((N + NB - 1) / NB),
        ∑ c ∈ Finset.range ((K + KB - 1) / KB),
          ∑ i ∈ Finset.range (min (ti * MB + MB) M - ti * MB),
            ∑ k ∈ Finset.range (min (c * KB + KB) K - c * KB),
              ∑ j ∈ Finset.range (min (tj * NB + NB) N - tj * NB),
                g (ti * MB + i) (c * KB + k) (tj * NB + j) :=
    sum_flatten ((M + MB - 1) / MB) ((N + NB - 1) / NB)
      (fun ti tj => ∑ c ∈ Finset.range ((K + KB - 1) / KB),
        ∑ i ∈ Finset.range (min (ti * MB + MB) M - ti * MB),
          ∑ k ∈ Finset.range (min (c * KB + KB) K - c * KB),
            ∑ j ∈ Finset.range (min (tj * NB + NB) N - tj * NB),
              g (ti * MB + i) (c * KB + k) (tj * NB + j))
  rw [hflat]
  trans (∑ ti ∈ Finset.range ((M + MB - 1) / MB),
      ∑ i ∈ Finset.range (min (ti * MB + MB) M - ti * MB),
        ∑ tj ∈ Finset.range ((N + NB - 1) / NB),
          ∑ j ∈ Finset.range (min (tj * NB + NB) N - tj * NB),
            ∑ x ∈ Finset.range K, g (ti * MB + i) x (tj * NB + j))
  · apply Finset.sum_congr rfl
    intro ti _
    trans (∑ tj ∈ Finset.range ((N + NB - 1) / NB),
        ∑ i ∈ Finset.range (min (ti * MB + MB) M - ti * MB),
          ∑ j ∈ Finset.range (min (tj * NB + NB) N - tj * NB),
            ∑ x ∈ Finset.range K, g (ti * MB + i) x (tj * NB + j))
    · apply Finset.sum_congr rfl
      intro tj _
      rw [Finset.sum_comm]
      apply Finset.sum_congr rfl
      intro i _
      trans (∑ j ∈ Finset.range (min (tj * NB + NB) N - tj * NB),
          ∑ c ∈ Finset.range ((K + KB - 1) / KB),
            ∑ k ∈ Finset.range (min (c * KB + KB) K - c * KB),
              g (ti * MB + i) (c * KB + k) (tj * NB + j))
      · trans (∑ c ∈ Finset.range ((K + KB - 1) / KB),
            ∑ j ∈ Finset.range (min (tj * NB + NB) N - tj * NB),
              ∑ k ∈ Finset.range (min (c * KB + KB) K - c * KB),
                g (ti * MB + i) (c * KB + k) (tj * NB + j))
        · apply Finset.sum_congr rfl
          intro c _
          rw [Finset.sum_comm]
        · rw [Finset.sum_comm]
      · apply Finset.sum_congr rfl
        intro j _
        exact sum_chunks KB hKB K (fun x => g (ti * MB + i) x (tj * NB + j))
    · rw [Finset.sum_comm]
  trans (∑ ti ∈ Finset.range ((M + MB - 1) / MB),
      ∑ i ∈ Finset.range (min (ti * MB + MB) M - ti * MB),
        ∑ y ∈ Finset.range N, ∑ x ∈ Finset.range K, g (ti * MB + i) x y)
  · apply Finset.sum_congr rfl
    intro ti _
    apply Finset.sum_congr rfl
    intro i _
    exact sum_chunks NB hNB N (fun y => ∑ x ∈ Finset.range K, g (ti * MB + i) x y)
  trans (∑ z ∈ Finset.range M, ∑ y ∈ Finset.range N, ∑ x ∈ Finset.range K, g z x y)
  · exact sum_chunks MB hMB M
      (fun z => ∑ y ∈ Finset.range N, ∑ x ∈ Finset.range K, g z x y)
  · apply Finset.sum_congr rfl
    intro z _
    rw [Finset.sum_comm]

/-! ## Implementation deltas: gemm_blocked -/

theorem blocked_tile_delta (A B : Nat → ℚ) (lda ldb ldc K KB : Nat) (ii jj iW jW : Nat) :
    ∀ C n, loopUp (fun c Cc =>
      loopUp (fun di Ci =>
        loopUp (fun dk Ck =>
          jline (A ((ii + di) * lda + (c * KB + dk))) B ((c * KB + dk) * ldb)
            ((ii + di) * ldc) jj jW Ck) (min (c * KB + KB) K - c * KB) Ci) iW Cc)
      ((K + KB - 1) / KB) C n
    = C n + ∑ c ∈ Finset.range ((K + KB - 1) / KB), ∑ di ∈ Finset.range iW,
        ∑ dk ∈ Finset.range (min (c * KB + KB) K - c * KB), ∑ dj ∈ Finset.range jW,
          ind ((ii + di) * ldc + (jj + dj))
            (A ((ii + di) * lda + (c * KB + dk)) * B ((c * KB + dk) * ldb + (jj + dj))) n := by
  intro C n
  have hk : ∀ c di : Nat, ∀ C2 : Nat → ℚ, ∀ n2, loopUp (fun dk Ck =>
        jline (A ((ii + di) * lda + (c * KB + dk))) B ((c * KB + dk) * ldb)
          ((ii + di) * ldc) jj jW Ck) (min (c * KB + KB) K - c * KB) C2 n2
      = C2 n2 + ∑ dk ∈ Finset.range (min (c * KB + KB) K - c * KB), ∑ dj ∈ Finset.range jW,
          ind ((ii + di) * ldc + (jj + dj))
            (A ((ii + di) * lda + (c * KB + dk)) * B ((c * KB + dk) * ldb + (jj + dj))) n2 :=
    fun c di => loopUp_incr _ _ _ (fun dk _ C3 n3 =>
      jline_delta (A ((ii + di) * lda + (c * KB + dk))) B ((c * KB + dk) * ldb)
        ((ii + di) * ldc) jj jW C3 n3)
  have hi : ∀ c : Nat, ∀ C2 : Nat → ℚ, ∀ n2, loopUp (fun di Ci =>
        loopUp (fun dk Ck =>
          jline (A ((ii + di) * lda + (c * KB + dk))) B ((c * KB + dk) * ldb)
            ((ii + di) * ldc) jj jW Ck) (min (c * KB + KB) K - c * KB) Ci) iW C2 n2
      = C2 n2 + ∑ di ∈ Finset.range iW,
          ∑ dk ∈ Finset.range (min (c * KB + KB) K - c * KB), ∑ dj ∈ Finset.range jW,
            ind ((ii + di) * ldc + (jj + dj))
              (A ((ii + di) * lda + (c * KB + dk)) * B ((c * KB + dk) * ldb + (jj + dj))) n2 :=
    fun c => loopUp_incr _ _ iW (fun di _ C3 n3 => hk c di C3 n3)
  exact loopUp_incr _ _ _ (fun c _ C3 n3 => hi c C3 n3) C n

theorem gemm_blocked_delta (M N K : Nat) (A B : Nat → ℚ) (lda ldb ldc MB NB KB : Nat)
    (hMB : 0 < MB) (hNB : 0 < NB) (hKB : 0 < KB) :
    ∀ C n, gemm_blocked M N K A B C lda ldb ldc ⟨MB, NB, KB⟩ n
      = C n + gemmDelta M N K A B lda ldb ldc n := by
  intro C n
  simp only [gemm_blocked]
  refine Eq.trans (loopUp_incr _
    (fun t n2 => ∑ c ∈ Finset.range ((K + KB - 1) / KB),
      ∑ di ∈ Finset.range (min ((t / ((N + NB - 1) / NB)) * MB + MB) M
          - (t / ((N + NB - 1) / NB)) * MB),
        ∑ dk ∈ Finset.range (min (c * KB + KB) K - c * KB),
          ∑ dj ∈ Finset.range (min ((t % ((N + NB - 1) / NB)) * NB + NB) N
              - (t % ((N + NB - 1) / NB)) * NB),
            ind (((t / ((N + NB - 1) / NB)) * MB + di) * ldc
                + ((t % ((N + NB - 1) / NB)) * NB + dj))
              (A (((t / ((N + NB - 1) / NB)) * MB + di) * lda + (c * KB + dk))
                * B ((c * KB + dk) * ldb + ((t % ((N + NB - 1) / NB)) * NB + dj))) n2)
    (((M + MB - 1) / MB) * ((N + NB - 1) / NB))
    (fun t _ C2 n2 => blocked_tile_delta A B lda ldb ldc K KB
      ((t / ((N + NB - 1) / NB)) * MB) ((t % ((N + NB - 1) / NB)) * NB)
      (min ((t / ((N + NB - 1) / NB)) * MB + MB) M - (t / ((N + NB - 1) / NB)) * MB)
      (min ((t % ((N + NB - 1) / NB)) * NB + NB) N - (t % ((N + NB - 1) / NB)) * NB) C2 n2)
    C n) ?_
  congr 1
  simp only [gemmDelta]
  exact tiled_sum_eq M N K MB NB KB hMB hNB hKB
    (fun i k j => ind (i * ldc + j) (A (i * lda + k) * B (k * ldb + j)) n)

/-! ## Implementation deltas: gemm_packed -/

theorem packed_chunk_delta (A B : Nat → ℚ) (lda ldb ldc : Nat) (ii jj kk aMB aNB aKB : Nat)
    (bufA bufB : Nat → ℚ) : ∀ C : Nat → ℚ, ∀ n,
    micro_kernel_packed aMB aNB aKB (pack_A_panel aMB aKB A (ii * lda + kk) lda bufA)
      (pack_B_panel aKB aNB B (kk * ldb + jj) ldb bufB) C (ii * ldc + jj) ldc n
    = C n + ∑ i ∈ Finset.range aMB, ∑ k ∈ Finset.range aKB, ∑ j ∈ Finset.range aNB,
        ind ((ii + i) * ldc + (jj + j))
          (A ((ii + i) * lda + (kk + k)) * B ((kk + k) * ldb + (jj + j))) n := by
  intro C n
  rw [micro_kernel_packed_delta aMB aNB aKB
    (pack_A_panel aMB aKB A (ii * lda + kk) lda bufA)
    (pack_B_panel aKB aNB B (kk * ldb + jj) ldb bufB) (ii * ldc + jj) ldc C n]
  congr 1
  apply Finset.sum_congr rfl
  intro i hi
  apply Finset.sum_congr rfl
  intro k hk
  apply Finset.sum_congr rfl
  intro j hj
  rw [Finset.mem_range] at hi hk hj
  rw [pack_A_panel_value aMB aKB A (ii * lda + kk) lda bufA i k hi hk,
    pack_B_panel_value aKB aNB B (kk * ldb + jj) ldb bufB k j hk hj,
    show ii * ldc + jj + i * ldc + j = (ii + i) * ldc + (jj + j) by ring,
    show ii * lda + kk + i * lda + k = (ii + i) * lda + (kk + k) by ring,
    show kk * ldb + jj + k * ldb + j = (kk + k) * ldb + (jj + j) by ring]

theorem packed_tile_delta (A B : Nat → ℚ) (lda ldb ldc K KB : Nat) (ii jj aMB aNB : Nat) :
    ∀ s : (Nat → ℚ) × ((Nat → ℚ) × (Nat → ℚ)), ∀ n,
    (loopUp (fun c s2 =>
      (micro_kernel_packed aMB aNB (min (c * KB + KB) K - c * KB)
        (pack_A_panel aMB (min (c * KB + KB) K - c * KB) A (ii * lda + c * KB) lda s2.2.1)
        (pack_B_panel (min (c * KB + KB) K - c * KB) aNB B (c * KB * ldb + jj) ldb s2.2.2)
        s2.1 (ii * ldc + jj) ldc,
       pack_A_panel aMB (min (c * KB + KB) K - c * KB) A (ii * lda + c * KB) lda s2.2.1,
       pack_B_panel (min (c * KB + KB) K - c * KB) aNB B (c * KB * ldb + jj) ldb s2.2.2))
      ((K + KB - 1) / KB) s).1 n
    = s.1 n + ∑ c ∈ Finset.range ((K + KB - 1) / KB), ∑ i ∈ Finset.range aMB,
        ∑ k ∈ Finset.range (min (c * KB + KB) K - c * KB), ∑ j ∈ Finset.range aNB,
          ind ((ii + i) * ldc + (jj + j))
            (A ((ii + i) * lda + (c * KB + k)) * B ((c * KB + k) * ldb + (jj + j))) n := by
  intro s n
  refine loopUp_fst_incr _
    (fun c n2 => ∑ i ∈ Finset.range aMB,
      ∑ k ∈ Finset.range (min (c * KB + KB) K - c * KB), ∑ j ∈ Finset.range aNB,
        ind ((ii + i) * ldc + (jj + j))
          (A ((ii + i) * lda + (c * KB + k)) * B ((c * KB + k) * ldb + (jj + j))) n2)
    ((K + KB - 1) / KB) ?_ s n
  intro c _ s2 n2
  exact packed_chunk_delta A B lda ldb ldc ii jj (c * KB) aMB aNB
    (min (c * KB + KB) K - c * KB) s2.2.1 s2.2.2 s2.1 n2

theorem gemm_packed_delta (M N K : Nat) (A B : Nat → ℚ) (lda ldb ldc MB NB KB : Nat)
    (hMB : 0 < MB) (hNB : 0 < NB) (hKB : 0 < KB) :
    ∀ C n, ∀ Apk0 Bpk0 : Nat → ℚ,
    gemm_packed M N K A B C lda ldb ldc ⟨MB, NB, KB⟩ Apk0 Bpk0 n
      = C n + gemmDelta M N K A B lda ldb ldc n := by
  intro C n Apk0 Bpk0
  simp only [gemm_packed]
  refine Eq.trans (loopUp_fst_incr _
    (fun t n2 => ∑ c ∈ Finset.range ((K + KB - 1) / KB),
      ∑ i ∈ Finset.range (min ((t / ((N + NB - 1) / NB)) * MB + MB) M
          - (t / ((N + NB - 1) / NB)) * MB),
        ∑ k ∈ Finset.range (min (c * KB + KB) K - c * KB),
          ∑ j ∈ Finset.range (min ((t % ((N + NB - 1) / NB)) * NB + NB) N
              - (t % ((N + NB - 1) / NB)) * NB),
            ind (((t / ((N + NB - 1) / NB)) * MB + i) * ldc
                + ((t % ((N + NB - 1) / NB)) * NB + j))
              (A (((t / ((N + NB - 1) / NB)) * MB + i) * lda + (c * KB + k))
                * B ((c * KB + k) * ldb + ((t % ((N + NB - 1) / NB)) * NB + j))) n2)
    (((M + MB - 1) / MB) * ((N + NB - 1) / NB)) ?_ (C, Apk0, Bpk0) n) ?_
  · intro t _ s2 n2
    exact packed_tile_delta A B lda ldb ldc K KB
      ((t / ((N + NB - 1) / NB)) * MB) ((t % ((N + NB - 1) / NB)) * NB)
      (min ((t / ((N + NB - 1) / NB)) * MB + MB) M - (t / ((N + NB - 1) / NB)) * MB)
      (min ((t % ((N + NB - 1) / NB)) * NB + NB) N - (t % ((N + NB - 1) / NB)) * NB) s2 n2
  show C n + _ = C n + gemmDelta M N K A B lda ldb ldc n
  congr 1
  simp only [gemmDelta]
  exact tiled_sum_eq M N K MB NB KB hMB hNB hKB
    (fun i k j => ind (i * ldc + j) (A (i * lda + k) * B (k * ldb + j)) n)

/-! ## Implementation deltas: gemm_mk_avx2 -/

theorem mk_chunk_delta (A B : Nat → ℚ) (lda ldb ldc : Nat) (ii jj kk aMB aNB aKB : Nat)
    (bufA bufB : Nat → ℚ) (hldN : aNB ≤ ldc) : ∀ C : Nat → ℚ, ∀ n,
    loopUp (fun q Cq =>
      loopUp (fun p Cp =>
        mk_dispatch (min 8 (aMB - q * 8)) (min 8 (aNB - p * 8)) aKB
          (shift (pack_A_panel_mk aMB aKB A (ii * lda + kk) lda bufA) (q * 8 * aKB))
          (shift (pack_B_panel_mk aKB aNB B (kk * ldb + jj) ldb bufB) (p * 8)) aNB Cp
          ((ii + q * 8) * ldc + (jj + p * 8)) ldc)
        ((aNB + 7) / 8) Cq)
      ((aMB + 7) / 8) C n
    = C n + ∑ i ∈ Finset.range aMB, ∑ k ∈ Finset.range aKB, ∑ j ∈ Finset.range aNB,
        ind ((ii + i) * ldc + (jj + j))
          (A ((ii + i) * lda + (kk + k)) * B ((kk + k) * ldb + (jj + j))) n := by
  intro C n
  have hqp : ∀ q p : Nat, ∀ C2 : Nat → ℚ, ∀ n2,
      mk_dispatch (min 8 (aMB - q * 8)) (min 8 (aNB - p * 8)) aKB
        (shift (pack_A_panel_mk aMB aKB A (ii * lda + kk) lda bufA) (q * 8 * aKB))
        (shift (pack_B_panel_mk aKB aNB B (kk * ldb + jj) ldb bufB) (p * 8)) aNB C2
        ((ii + q * 8) * ldc + (jj + p * 8)) ldc n2
      = C2 n2 + ∑ r ∈ Finset.range (min 8 (aMB - q * 8)),
          ∑ j ∈ Finset.range (min 8 (aNB - p * 8)),
            ind ((ii + (q * 8 + r)) * ldc + (jj + (p * 8 + j)))
              (∑ k ∈ Finset.range aKB,
                A ((ii + (q * 8 + r)) * lda + (kk + k))
                  * B ((kk + k) * ldb + (jj + (p * 8 + j)))) n2 := by
    intro q p C2 n2
    rw [mk_dispatch_delta (min 8 (aMB - q * 8)) (min 8 (aNB - p * 8)) aKB
      (shift (pack_A_panel_mk aMB aKB A (ii * lda + kk) lda bufA) (q * 8 * aKB))
      (shift (pack_B_panel_mk aKB aNB B (kk * ldb + jj) ldb bufB) (p * 8)) aNB
      ((ii + q * 8) * ldc + (jj + p * 8)) ldc (fun h1 h2 => by omega) C2 n2]
    congr 1
    apply Finset.sum_congr rfl
    intro r hr
    apply Finset.sum_congr rfl
    intro j hj
    rw [Finset.mem_range] at hr hj
    have hcell : (ii + q * 8) * ldc + (jj + p * 8) + r * ldc + j
        = (ii + (q * 8 + r)) * ldc + (jj + (p * 8 + j)) := by ring
    have hval : (∑ k ∈ Finset.range aKB,
          shift (pack_A_panel_mk aMB aKB A (ii * lda + kk) lda bufA) (q * 8 * aKB)
              (r * aKB + k)
            * shift (pack_B_panel_mk aKB aNB B (kk * ldb + jj) ldb bufB) (p * 8)
              (k * aNB + j))
        = ∑ k ∈ Finset.range aKB,
            A ((ii + (q * 8 + r)) * lda + (kk + k))
              * B ((kk + k) * ldb + (jj + (p * 8 + j))) := by
      apply Finset.sum_congr rfl
      intro k hk
      rw [Finset.mem_range] at hk
      simp only [shift]
      rw [show q * 8 * aKB + (r * aKB + k) = (q * 8 + r) * aKB + k by ring,
        pack_A_panel_mk_value aMB aKB A (ii * lda + kk) lda bufA (q * 8 + r) k (by omega) hk,
        show p * 8 + (k * aNB + j) = k * aNB + (p * 8 + j) by ring,
        pack_B_panel_mk_value aKB aNB B (kk * ldb + jj) ldb bufB k (p * 8 + j) hk (by omega),
        show ii * lda + kk + (q * 8 + r) * lda + k = (ii + (q * 8 + r)) * lda + (kk + k) by ring,
        show kk * ldb + jj + k * ldb + (p * 8 + j)
            = (kk + k) * ldb + (jj + (p * 8 + j)) by ring]
    rw [hcell, hval]
  refine Eq.trans (loopUp_incr _
    (fun q n2 => ∑ p ∈ Finset.range ((aNB + 7) / 8),
      ∑ r ∈ Finset.range (min 8 (aMB - q * 8)), ∑ j ∈ Finset.range (min 8 (aNB - p * 8)),
        ind ((ii + (q * 8 + r)) * ldc + (jj + (p * 8 + j)))
          (∑ k ∈ Finset.range aKB,
            A ((ii + (q * 8 + r)) * lda + (kk + k))
              * B ((kk + k) * ldb + (jj + (p * 8 + j)))) n2)
    ((aMB + 7) / 8) ?_ C n) ?_
  · intro q _ C2 n2
    exact loopUp_incr _
      (fun p n3 => ∑ r ∈ Finset.range (min 8 (aMB - q * 8)),
        ∑ j ∈ Finset.range (min 8 (aNB - p * 8)),
          ind ((ii + (q * 8 + r)) * ldc + (jj + (p * 8 + j)))
            (∑ k ∈ Finset.range aKB,
              A ((ii + (q * 8 + r)) * lda + (kk + k))
                * B ((kk + k) * ldb + (jj + (p * 8 + j)))) n3)
      ((aNB + 7) / 8) (fun p _ C3 n3 => hqp q p C3 n3) C2 n2
  congr 1
  trans (∑ x ∈ Finset.range aMB, ∑ y ∈ Finset.range aNB,
      ind ((ii + x) * ldc + (jj + y))
        (∑ k ∈ Finset.range aKB,
          A ((ii + x) * lda + (kk + k)) * B ((kk + k) * ldb + (jj + y))) n)
  · trans (∑ q ∈ Finset.range ((aMB + 7) / 8), ∑ r ∈ Finset.range (min 8 (aMB - q * 8)),
        ∑ y ∈ Finset.range aNB,
          ind ((ii + (q * 8 + r)) * ldc + (jj + y))
            (∑ k ∈ Finset.range aKB,
              A ((ii + (q * 8 + r)) * lda + (kk + k)) * B ((kk + k) * ldb + (jj + y))) n)
    · apply Finset.sum_congr rfl
      intro q _
      rw [Finset.sum_comm]
      apply Finset.sum_congr rfl
      intro r _
      trans (∑ p ∈ Finset.range ((aNB + 7) / 8),
          ∑ j ∈ Finset.range (min (p * 8 + 8) aNB - p * 8),
            ind ((ii + (q * 8 + r)) * ldc + (jj + (p * 8 + j)))
              (∑ k ∈ Finset.range aKB,
                A ((ii + (q * 8 + r)) * lda + (kk + k))
                  * B ((kk + k) * ldb + (jj + (p * 8 + j)))) n)
      · apply Finset.sum_congr rfl
        intro p _
        rw [show min 8 (aNB - p * 8) = min (p * 8 + 8) aNB - p * 8 by
          generalize p * 8 = x
          omega]
      · exact sum_chunks 8 (by omega) aNB (fun y =>
          ind ((ii + (q * 8 + r)) * ldc + (jj + y))
            (∑ k ∈ Finset.range aKB,
              A ((ii + (q * 8 + r)) * lda + (kk + k)) * B ((kk + k) * ldb + (jj + y))) n)
    · trans (∑ q ∈ Finset.range ((aMB + 7) / 8),
          ∑ r ∈ Finset.range (min (q * 8 + 8) aMB - q * 8),
            ∑ y ∈ Finset.range aNB,
              ind ((ii + (q * 8 + r)) * ldc + (jj + y))
                (∑ k ∈ Finset.range aKB,
                  A ((ii + (q * 8 + r)) * lda + (kk + k))
                    * B ((kk + k) * ldb + (jj + y))) n)
      · apply Finset.sum_congr rfl
        intro q _
        rw [show min 8 (aMB - q * 8) = min (q * 8 + 8) aMB - q * 8 by
          generalize q * 8 = x
          omega]
      · exact sum_chunks 8 (by omega) aMB (fun x =>
          ∑ y ∈ Finset.range aNB,
            ind ((ii + x) * ldc + (jj + y))
              (∑ k ∈ Finset.range aKB,
                A ((ii + x) * lda + (kk + k)) * B ((kk + k) * ldb + (jj + y))) n)
  · apply Finset.sum_congr rfl
    intro x _
    trans (∑ y ∈ Finset.range aNB, ∑ k ∈ Finset.range aKB,
        ind ((ii + x) * ldc + (jj + y))
          (A ((ii + x) * lda + (kk + k)) * B ((kk + k) * ldb + (jj + y))) n)
    · apply Finset.sum_congr rfl
      intro y _
      exact (ind_sum_swap aKB ((ii + x) * ldc + (jj + y))
        (fun k => A ((ii + x) * lda + (kk + k)) * B ((kk + k) * ldb + (jj + y))) n).symm
    · rw [Finset.sum_comm]

theorem mk_tile_delta (A B : Nat → ℚ) (lda ldb ldc K KB : Nat) (ii jj aMB aNB : Nat)
    (hldN : aNB ≤ ldc) :
    ∀ s : (Nat → ℚ) × ((Nat → ℚ) × (Nat → ℚ)), ∀ n,
    (loopUp (fun c s2 =>
      (loopUp (fun q Cq =>
        loopUp (fun p Cp =>
          mk_dispatch (min 8 (aMB - q * 8)) (min 8 (aNB - p * 8))
            (min (c * KB + KB) K - c * KB)
            (shift (pack_A_panel_mk aMB (min (c * KB + KB) K - c * KB) A
              (ii * lda + c * KB) lda s2.2.1) (q * 8 * (min (c * KB + KB) K - c * KB)))
            (shift (pack_B_panel_mk (min (c * KB + KB) K - c * KB) aNB B
              (c * KB * ldb + jj) ldb s2.2.2) (p * 8)) aNB Cp
            ((ii + q * 8) * ldc + (jj + p * 8)) ldc)
          ((aNB + 7) / 8) Cq)
        ((aMB + 7) / 8) s2.1,
       pack_A_panel_mk aMB (min (c * KB + KB) K - c * KB) A (ii * lda + c * KB) lda s2.2.1,
       pack_B_panel_mk (min (c * KB + KB) K - c * KB) aNB B (c * KB * ldb + jj) ldb s2.2.2))
      ((K + KB - 1) / KB) s).1 n
    = s.1 n + ∑ c ∈ Finset.range ((K + KB - 1) / KB), ∑ i ∈ Finset.range aMB,
        ∑ k ∈ Finset.range (min (c * KB + KB) K - c * KB), ∑ j ∈ Finset.range aNB,
          ind ((ii + i) * ldc + (jj + j))
            (A ((ii + i) * lda + (c * KB + k)) * B ((c * KB + k) * ldb + (jj + j))) n := by
  intro s n
  refine loopUp_fst_incr _
    (fun c n2 => ∑ i ∈ Finset.range aMB,
      ∑ k ∈ Finset.range (min (c * KB + KB) K - c * KB), ∑ j ∈ Finset.range aNB,
        ind ((ii + i) * ldc + (jj + j))
          (A ((ii + i) * lda + (c * KB + k)) * B ((c * KB + k) * ldb + (jj + j))) n2)
    ((K + KB - 1) / KB) ?_ s n
  intro c _ s2 n2
  exact mk_chunk_delta A B lda ldb ldc ii jj (c * KB) aMB aNB
    (min (c * KB + KB) K - c * KB) s2.2.1 s2.2.2 hldN s2.1 n2

theorem gemm_mk_avx2_delta (M N K : Nat) (A B : Nat → ℚ) (lda ldb ldc MB NB KB : Nat)
    (hMB : 0 < MB) (hNB : 0 < NB) (hKB : 0 < KB) (hldc : N ≤ ldc) :
    ∀ C n, ∀ Apk0 Bpk0 : Nat → ℚ,
    gemm_mk_avx2 M N K A B C lda ldb ldc ⟨MB, NB, KB⟩ Apk0 Bpk0 n
      = C n + gemmDelta M N K A B lda ldb ldc n := by
  intro C n Apk0 Bpk0
  simp only [gemm_mk_avx2]
  refine Eq.trans (loopUp_fst_incr _
    (fun t n2 => ∑ c ∈ Finset.range ((K + KB - 1) / KB),
      ∑ i ∈ Finset.range (min ((t / ((N + NB - 1) / NB)) * MB + MB) M
          - (t / ((N + NB - 1) / NB)) * MB),
        ∑ k ∈ Finset.range (min (c * KB + KB) K - c * KB),
          ∑ j ∈ Finset.range (min ((t % ((N + NB - 1) / NB)) * NB + NB) N
              - (t % ((N + NB - 1) / NB)) * NB),
            ind (((t / ((N + NB - 1) / NB)) * MB + i) * ldc
                + ((t % ((N + NB - 1) / NB)) * NB + j))
              (A (((t / ((N + NB - 1) / NB)) * MB + i) * lda + (c * KB + k))
                * B ((c * KB + k) * ldb + ((t % ((N + NB - 1) / NB)) * NB + j))) n2)
    (((M + MB - 1) / MB) * ((N + NB - 1) / NB)) ?_ (C, Apk0, Bpk0) n) ?_
  · intro t _ s2 n2
    exact mk_tile_delta A B lda ldb ldc K KB
      ((t / ((N + NB - 1) / NB)) * MB) ((t % ((N + NB - 1) / NB)) * NB)
      (min ((t / ((N + NB - 1) / NB)) * MB + MB) M - (t / ((N + NB - 1) / NB)) * MB)
      (min ((t % ((N + NB - 1) / NB)) * NB + NB) N - (t % ((N + NB - 1) / NB)) * NB)
      (by omega) s2 n2
  show C n + _ = C n + gemmDelta M N K A B lda ldb ldc n
  congr 1
  simp only [gemmDelta]
  exact tiled_sum_eq M N K MB NB KB hMB hNB hKB
    (fun i k j => ind (i * ldc + j) (A (i * lda + k) * B (k * ldb + j)) n)

/-! ## Evaluating the canonical delta -/

theorem gemmDelta_at (M N K : Nat) (A B : Nat → ℚ) (lda ldb ldc : Nat) (hldc : N ≤ ldc)
    (i0 j0 : Nat) (hi : i0 < M) (hj : j0 < N) :
    gemmDelta M N K A B lda ldb ldc (i0 * ldc + j0)
      = ∑ k ∈ Finset.range K, A (i0 * lda + k) * B (k * ldb + j0) := by
  unfold gemmDelta
  rw [Finset.sum_eq_single i0]
  · apply Finset.sum_congr rfl
    intro k _
    exact sum_ind_hit N (fun j => i0 * ldc + j)
      (fun j => A (i0 * lda + k) * B (k * ldb + j)) j0 hj
      (fun j _ he => Nat.add_left_cancel he)
  · intro i hiM hne
    rw [Finset.mem_range] at hiM
    apply Finset.sum_eq_zero
    intro k _
    apply sum_ind_miss
    intro j hjN he
    exact hne (rowcol_inj ldc i j i0 j0 (by omega) (by omega) he.symm).1
  · intro hnot
    exact absurd (Finset.mem_range.mpr hi) hnot

theorem gemmDelta_frame (M N K : Nat) (A B : Nat → ℚ) (lda ldb ldc : Nat) (n : Nat)
    (h : ∀ i, i < M → ∀ j, j < N → n ≠ i * ldc + j) :
    gemmDelta M N K A B lda ldb ldc n = 0 := by
  unfold gemmDelta
  apply Finset.sum_eq_zero
  intro i hi
  rw [Finset.mem_range] at hi
  apply Finset.sum_eq_zero
  intro k _
  exact sum_ind_miss N (fun j => i * ldc + j) _ n (fun j hj => h i hi j hj)

theorem gemmDelta_zero (M N K : Nat) (A B : Nat → ℚ) (lda ldb ldc : Nat) (n : Nat)
    (h : M = 0 ∨ N = 0 ∨ K = 0) : gemmDelta M N K A B lda ldb ldc n = 0 := by
  unfold gemmDelta
  rcases h with h | h | h
  · subst h; simp
  · subst h; simp
  · subst h; simp

/-! ## Tiling decode helpers -/

theorem lt_div_mul_add (a b : Nat) (hb : 0 < b) : a < a / b * b + b := by
  have h5 : a / b * b + a % b = a := by
    rw [Nat.mul_comm]
    exact Nat.div_add_mod a b
  have h6 : a % b < b := Nat.mod_lt a hb
  generalize a / b * b = w at h5 ⊢
  omega

theorem div_eq_of_between (i ti b : Nat) (h1 : ti * b ≤ i) (h2 : i < ti * b + b) :
    i / b = ti := by
  apply Nat.div_eq_of_lt_le h1
  rw [Nat.succ_mul]
  exact h2

theorem div_lt_ceil (a W b : Nat) (hb : 0 < b) (ha : a < W) :
    a / b < (W + b - 1) / b := by
  have h1 : a / b ≤ (W - 1) / b := Nat.div_le_div_right (by omega)
  have h2 : (W + b - 1) / b = (W - 1) / b + 1 := by
    rw [show W + b - 1 = (W - 1) + b by omega]
    exact Nat.add_div_right _ hb
  omega

theorem encode_div_mod (a b nJ : Nat) (hb : b < nJ) :
    (a * nJ + b) / nJ = a ∧ (a * nJ + b) % nJ = b := by
  constructor
  · rw [show a * nJ + b = b + nJ * a by ring, Nat.add_mul_div_left _ _ (by omega),
      Nat.div_eq_of_lt hb]
    omega
  · rw [show a * nJ + b = b + nJ * a by ring, Nat.add_mul_mod_self_left,
      Nat.mod_eq_of_lt hb]

theorem encode_lt (a b nI nJ : Nat) (ha : a < nI) (hb : b < nJ) :
    a * nJ + b < nI * nJ := by
  have h1 : a * nJ + b < (a + 1) * nJ := by
    have h2 : (a + 1) * nJ = a * nJ + nJ := Nat.succ_mul a nJ
    generalize a * nJ = w at h2 ⊢
    omega
  exact Nat.lt_of_lt_of_le h1 (Nat.mul_le_mul_right nJ ha)

theorem tileRect_mem (M N MB NB : Nat) (hMB : 0 < MB) (hNB : 0 < NB) (t : Nat)
    (x : Nat × Nat) :
    x ∈ tileRect M N MB NB t
      ↔ x.1 < M ∧ x.2 < N ∧ x.1 / MB = t / ((N + NB - 1) / NB)
        ∧ x.2 / NB = t % ((N + NB - 1) / NB) := by
  simp only [tileRect, Finset.mem_product, Finset.mem_Ico, lt_min_iff]
  constructor
  · rintro ⟨⟨h1, h2, h3⟩, h4, h5, h6⟩
    exact ⟨h3, h6, div_eq_of_between x.1 _ MB h1 h2, div_eq_of_between x.2 _ NB h4 h5⟩
  · rintro ⟨h1, h2, h3, h4⟩
    rw [← h3, ← h4]
    exact ⟨⟨Nat.div_mul_le_self x.1 MB, lt_div_mul_add x.1 MB hMB, h1⟩,
      Nat.div_mul_le_self x.2 NB, lt_div_mul_add x.2 NB hNB, h2⟩

/-! ## Micro-kernel frame and read-set lemmas -/

theorem mk_ref_strided_frame (MR NR KC : Nat) (Apk Bpk : Nat → ℚ) (ldb coff ldc : Nat)
    (C : Nat → ℚ) (n : Nat) (h : ∀ r, r < MR → ∀ j, j < NR → n ≠ coff + r * ldc + j) :
    mk_ref_strided MR NR KC Apk Bpk ldb C coff ldc n = C n := by
  rw [mk_ref_strided_delta MR NR KC Apk Bpk ldb coff ldc C n]
  have hz : (∑ i ∈ Finset.range MR, ∑ k ∈ Finset.range KC, ∑ j ∈ Finset.range NR,
      ind (coff + i * ldc + j) (Apk (i * KC + k) * Bpk (k * ldb + j)) n) = 0 := by
    apply Finset.sum_eq_zero
    intro i hi
    rw [Finset.mem_range] at hi
    apply Finset.sum_eq_zero
    intro k _
    exact sum_ind_miss NR (fun j => coff + i * ldc + j) _ n (fun j hj => h i hi j hj)
  rw [hz]
  ring

theorem mk8x8_avx2_strided_frame (KC : Nat) (A B : Nat → ℚ) (ldb coff ldc : Nat)
    (C : Nat → ℚ) (n : Nat) (h : ∀ r, r < 8 → ∀ j, j < 8 → n ≠ coff + r * ldc + j) :
    mk8x8_avx2_strided KC A B ldb C coff ldc n = C n := by
  simp only [mk8x8_avx2_strided]
  exact gridStore_frame (fun r j => coff + r * ldc + j)
    (fun r j => loopUp (fun k acc => fun r j => acc r j + A (r * KC + k) * B (k * ldb + j))
      KC (fun r j => C (coff + r * ldc + j)) r j) 8 8 C n h

theorem mk_ref_strided_congr (MR NR KC : Nat) (Apk Apk2 Bpk Bpk2 : Nat → ℚ)
    (ldb coff ldc : Nat) (C : Nat → ℚ)
    (hA : ∀ r, r < MR → ∀ k, k < KC → Apk (r * KC + k) = Apk2 (r * KC + k))
    (hB : ∀ k, k < KC → ∀ j, j < NR → Bpk (k * ldb + j) = Bpk2 (k * ldb + j)) :
    mk_ref_strided MR NR KC Apk Bpk ldb C coff ldc
      = mk_ref_strided MR NR KC Apk2 Bpk2 ldb C coff ldc := by
  simp only [mk_ref_strided]
  apply loopUp_congr
  intro i hi s
  apply loopUp_congr
  intro k hk s2
  apply loopUp_congr
  intro j hj s3
  rw [hA i hi k hk, hB k hk j hj]

theorem mk8x8_avx2_strided_congr (KC : Nat) (A A2 B B2 : Nat → ℚ) (ldb coff ldc : Nat)
    (C : Nat → ℚ)
    (hA : ∀ r, r < 8 → ∀ k, k < KC → A (r * KC + k) = A2 (r * KC + k))
    (hB : ∀ k, k < KC → ∀ j, j < 8 → B (k * ldb + j) = B2 (k * ldb + j)) :
    mk8x8_avx2_strided KC A B ldb C coff ldc = mk8x8_avx2_strided KC A2 B2 ldb C coff ldc := by
  simp only [mk8x8_avx2_strided]
  have hacc : ∀ r, r < 8 → ∀ j, j < 8 →
      loopUp (fun k acc => fun r j => acc r j + A (r * KC + k) * B (k * ldb + j)) KC
        (fun r j => C (coff + r * ldc + j)) r j
      = loopUp (fun k acc => fun r j => acc r j + A2 (r * KC + k) * B2 (k * ldb + j)) KC
        (fun r j => C (coff + r * ldc + j)) r j := by
    intro r hr j hj
    rw [mk8x8_acc_spec KC A B ldb C coff ldc KC r j,
      mk8x8_acc_spec KC A2 B2 ldb C coff ldc KC r j]
    congr 1
    apply Finset.sum_congr rfl
    intro k hk
    rw [Finset.mem_range] at hk
    rw [hA r hr k hk, hB k hk j hj]
  apply loopUp_congr
  intro r hr s
  apply loopUp_congr
  intro j hj s2
  rw [hacc r hr j hj]

/-! ## Claim theorems -/

/-- Claim C1: for every M,N,K ≥ 1, every valid block configuration
(MB,NB,KB > 0), and all row-major inputs with strides at least the logical
widths, each of gemm_blocked, gemm_packed and gemm_mk_avx2 produces an output
agreeing with the gemm_naive triple-loop result on the same inputs. In the
exact-arithmetic embedding (ℚ) the agreement is exact equality of the entire
output buffer, so the relative Frobenius error is 0 ≤ 1e-6. The packed and
vectorized results are moreover independent of the uninitialized panel
contents Apk0/Bpk0/Apk1/Bpk1. -/
theorem C1_impls_match_naive (M N K : Nat) (A B C : Nat → ℚ)
    (lda ldb ldc MB NB KB : Nat) (Apk0 Bpk0 Apk1 Bpk1 : Nat → ℚ)
    (hM : 1 ≤ M) (hN : 1 ≤ N) (hK : 1 ≤ K) (hMB : 0 < MB) (hNB : 0 < NB) (hKB : 0 < KB)
    (hlda : K ≤ lda) (hldb : N ≤ ldb) (hldc : N ≤ ldc) :
    gemm_blocked M N K A B C lda ldb ldc ⟨MB, NB, KB⟩ = gemm_naive M N K A B C lda ldb ldc
    ∧ gemm_packed M N K A B C lda ldb ldc ⟨MB, NB, KB⟩ Apk0 Bpk0
        = gemm_naive M N K A B C lda ldb ldc
    ∧ gemm_mk_avx2 M N K A B C lda ldb ldc ⟨MB, NB, KB⟩ Apk1 Bpk1
        = gemm_naive M N K A B C lda ldb ldc := by
  refine ⟨funext fun n => ?_, funext fun n => ?_, funext fun n => ?_⟩
  · rw [gemm_blocked_delta M N K A B lda ldb ldc MB NB KB hMB hNB hKB C n,
      gemm_naive_delta M N K A B lda ldb ldc C n]
  · rw [gemm_packed_delta M N K A B lda ldb ldc MB NB KB hMB hNB hKB C n Apk0 Bpk0,
      gemm_naive_delta M N K A B lda ldb ldc C n]
  · rw [gemm_mk_avx2_delta M N K A B lda ldb ldc MB NB KB hMB hNB hKB hldc C n Apk1 Bpk1,
      gemm_naive_delta M N K A B lda ldb ldc C n]

theorem C1_witness :
    gemm_blocked 2 2 2 (fun n => (n : ℚ)) (fun n => (n : ℚ) + 1) (fun _ => 0) 2 2 2 ⟨1, 1, 1⟩
      = gemm_naive 2 2 2 (fun n => (n : ℚ)) (fun n => (n : ℚ) + 1) (fun _ => 0) 2 2 2
    ∧ gemm_packed 2 2 2 (fun n => (n : ℚ)) (fun n => (n : ℚ) + 1) (fun _ => 0) 2 2 2
        ⟨1, 1, 1⟩ (fun _ => 9) (fun _ => 9)
      = gemm_naive 2 2 2 (fun n => (n : ℚ)) (fun n => (n : ℚ) + 1) (fun _ => 0) 2 2 2
    ∧ gemm_mk_avx2 2 2 2 (fun n => (n : ℚ)) (fun n => (n : ℚ) + 1) (fun _ => 0) 2 2 2
        ⟨1, 1, 1⟩ (fun _ => 9) (fun _ => 9)
      = gemm_naive 2 2 2 (fun n => (n : ℚ)) (fun n => (n : ℚ) + 1) (fun _ => 0) 2 2 2 :=
  C1_impls_match_naive 2 2 2 (fun n => (n : ℚ)) (fun n => (n : ℚ) + 1) (fun _ => 0)
    2 2 2 1 1 1 (fun _ => 9) (fun _ => 9) (fun _ => 9) (fun _ => 9)
    (by decide) (by decide) (by decide) (by decide) (by decide) (by decide)
    (by decide) (by decide) (by decide)

/-- Claim C2: for every M,N,K ≥ 0 and strides lda ≥ K, ldb ≥ N, ldc ≥ N,
gemm_naive accumulates in place: each output cell C[i*ldc+j] (i < M, j < N)
ends up at its prior value plus the dot product of row i of A and column j of
B, and no other cell of memory is written. The source accumulates the dot
product in increasing k order; over the exact-arithmetic embedding that
ordered accumulation equals the Finset sum over k < K. -/
theorem C2_naive_accumulates (M N K : Nat) (A B C : Nat → ℚ) (lda ldb ldc : Nat)
    (hlda : K ≤ lda) (hldb : N ≤ ldb) (hldc : N ≤ ldc) :
    (∀ i, i < M → ∀ j, j < N →
      gemm_naive M N K A B C lda ldb ldc (i * ldc + j)
        = C (i * ldc + j) + ∑ k ∈ Finset.range K, A (i * lda + k) * B (k * ldb + j))
    ∧ (∀ n, (∀ i, i < M → ∀ j, j < N → n ≠ i * ldc + j) →
        gemm_naive M N K A B C lda ldb ldc n = C n) := by
  constructor
  · intro i hi j hj
    rw [gemm_naive_delta M N K A B lda ldb ldc C (i * ldc + j),
      gemmDelta_at M N K A B lda ldb ldc hldc i j hi hj]
  · intro n hn
    rw [gemm_naive_delta M N K A B lda ldb ldc C n,
      gemmDelta_frame M N K A B lda ldb ldc n hn]
    ring

theorem C2_witness :
    gemm_naive 1 1 1 (fun _ => 2) (fun _ => 3) (fun _ => 5) 1 1 1 (0 * 1 + 0)
      = (fun _ : Nat => (5 : ℚ)) (0 * 1 + 0)
        + ∑ k ∈ Finset.range 1,
            (fun _ : Nat => (2 : ℚ)) (0 * 1 + k) * (fun _ : Nat => (3 : ℚ)) (k * 1 + 0) :=
  (C2_naive_accumulates 1 1 1 (fun _ => 2) (fun _ => 3) (fun _ => 5) 1 1 1
    (by decide) (by decide) (by decide)).1 0 (by decide) 0 (by decide)

/-- Claim C3: for every implementation-name string not in the recognized set,
run_gemm fails with the unknown-implementation error of
src/cpu/gemm_dispatcher.cpp line 19, for all argument values; no
implementation is invoked and the error result carries no modified output, so
C receives zero writes. -/
theorem C3_unknown_impl_error (impl : String) (M N K : Nat) (A B C : Nat → ℚ)
    (lda ldb ldc : Nat) (bs : Block) (Apk0 Bpk0 : Nat → ℚ)
    (h : impl ∉ ["naive", "blocked", "packed", "mk_avx2", "openblas"]) :
    run_gemm impl M N K A B C lda ldb ldc bs Apk0 Bpk0
      = Except.error ("Unknown implementation: " ++ impl) := by
  have h1 : ¬impl = "naive" := by intro he; exact h (by rw [he]; simp)
  have h2 : ¬impl = "blocked" := by intro he; exact h (by rw [he]; simp)
  have h3 : ¬impl = "packed" := by intro he; exact h (by rw [he]; simp)
  have h4 : ¬impl = "mk_avx2" := by intro he; exact h (by rw [he]; simp)
  have h5 : ¬impl = "openblas" := by intro he; exact h (by rw [he]; simp)
  simp only [run_gemm]
  rw [if_neg h1, if_neg h2, if_neg h3, if_neg h4, if_neg h5]

theorem C3_witness :
    run_gemm "bogus" 1 1 1 (fun _ => 1) (fun _ => 1) (fun _ => 0) 1 1 1 ⟨1, 1, 1⟩
      (fun _ => 0) (fun _ => 0) = Except.error ("Unknown implementation: " ++ "bogus") :=
  C3_unknown_impl_error "bogus" 1 1 1 (fun _ => 1) (fun _ => 1) (fun _ => 0) 1 1 1
    ⟨1, 1, 1⟩ (fun _ => 0) (fun _ => 0) (by decide)

/-- Claim C4 (code bug in the source): the spec requires non-positive tile
sizes to be detected as a configuration error before any computation, but
neither run_gemm nor any implementation validates the block configuration.
Evaluating the faithful Int model of gemm_blocked at the failing input
M = N = K = 1, lda = ldb = ldc = 1, MB = -1, NB = KB = 256 shows the call
returns normally: nI = (1 + (-1) - 1) tdiv (-1) = 1 tile is scheduled, its
row range [0, min(-1, 1)) is empty, so the function silently performs no
work, raises no error, and leaves C unchanged — there is no configuration
error surfaced to the caller. (With MB = 0 the source instead divides by
zero, and with KB ≤ 0 and K > 0 the depth loop never terminates.) -/
theorem C4_blocked_no_config_error (A B C : Int → ℚ) :
    gemm_blocked_int 1 1 1 A B C 1 1 1 (-1) 256 256 = C := by
  rfl

/-- Claim C5: packing is a lossless copy: every in-range cell of the packed
panel equals the corresponding strided source element, with no value
transformed, for all four packing routines (gemm_packed.cpp and
gemm_mk_avx2.cpp), for any prior contents of the panel buffer. -/
theorem C5_pack_lossless (MB KB NB : Nat) (A B : Nat → ℚ) (aoff boff lda ldb : Nat)
    (Apk0 Bpk0 Apk1 Bpk1 : Nat → ℚ) (hlda : KB ≤ lda) (hldb : NB ≤ ldb) :
    (∀ i, i < MB → ∀ k, k < KB →
      pack_A_panel MB KB A aoff lda Apk0 (i * KB + k) = A (aoff + i * lda + k))
    ∧ (∀ k, k < KB → ∀ j, j < NB →
      pack_B_panel KB NB B boff ldb Bpk0 (k * NB + j) = B (boff + k * ldb + j))
    ∧ (∀ i, i < MB → ∀ k, k < KB →
      pack_A_panel_mk MB KB A aoff lda Apk1 (i * KB + k) = A (aoff + i * lda + k))
    ∧ (∀ k, k < KB → ∀ j, j < NB →
      pack_B_panel_mk KB NB B boff ldb Bpk1 (k * NB + j) = B (boff + k * ldb + j)) :=
  ⟨fun i hi k hk => pack_A_panel_value MB KB A aoff lda Apk0 i k hi hk,
   fun k hk j hj => pack_B_panel_value KB NB B boff ldb Bpk0 k j hk hj,
   fun i hi k hk => pack_A_panel_mk_value MB KB A aoff lda Apk1 i k hi hk,
   fun k hk j hj => pack_B_panel_mk_value KB NB B boff ldb Bpk1 k j hk hj⟩

theorem C5_witness :
    pack_A_panel 1 2 (fun n => (n : ℚ)) 0 2 (fun _ => 9) (0 * 2 + 1)
      = ((0 + 0 * 2 + 1 : Nat) : ℚ) :=
  (C5_pack_lossless 1 2 2 (fun n => (n : ℚ)) (fun n => (n : ℚ)) 0 0 2 2
    (fun _ => 9) (fun _ => 9) (fun _ => 9) (fun _ => 9) (by decide) (by decide)).1
    0 (by decide) 1 (by decide)

/-- Claim C6: the kernel selection of gemm_mk_avx2 (src/cpu/gemm_mk_avx2.cpp
lines 102-117, embedded as mk_dispatch and instantiated there with
mr = min 8 (actual_MB - i0), nr = min 8 (actual_NB - j0)) invokes the
vectorized kernel exactly when mr = 8 and nr = 8 and the scalar fallback
otherwise; any invocation writes only the mr x nr region of C at the given
offset, and reads only the A-panel cells r*KC + k (r < mr, k < KC) and the
B-panel cells k*ldb + j (k < KC, j < nr), so no invocation touches memory
outside the packed panels or its output region. -/
theorem C6_dispatch_guard (mr nr KC : Nat) (Ablk Bblk : Nat → ℚ) (ldb : Nat)
    (C : Nat → ℚ) (coff ldc : Nat) :
    (¬(mr = 8 ∧ nr = 8) → mk_dispatch mr nr KC Ablk Bblk ldb C coff ldc
        = mk_ref_strided mr nr KC Ablk Bblk ldb C coff ldc)
    ∧ ((mr = 8 ∧ nr = 8) → mk_dispatch mr nr KC Ablk Bblk ldb C coff ldc
        = mk8x8_avx2_strided KC Ablk Bblk ldb C coff ldc)
    ∧ (∀ n, (∀ r, r < mr → ∀ j, j < nr → n ≠ coff + r * ldc + j) →
        mk_dispatch mr nr KC Ablk Bblk ldb C coff ldc n = C n)
    ∧ (∀ Ablk2 Bblk2 : Nat → ℚ,
        (∀ r, r < mr → ∀ k, k < KC → Ablk (r * KC + k) = Ablk2 (r * KC + k)) →
        (∀ k, k < KC → ∀ j, j < nr → Bblk (k * ldb + j) = Bblk2 (k * ldb + j)) →
        mk_dispatch mr nr KC Ablk Bblk ldb C coff ldc
          = mk_dispatch mr nr KC Ablk2 Bblk2 ldb C coff ldc) := by
  refine ⟨?_, ?_, ?_, ?_⟩
  · intro h
    unfold mk_dispatch
    rw [if_neg h]
  · intro h
    unfold mk_dispatch
    rw [if_pos h]
  · intro n hn
    unfold mk_dispatch
    by_cases h : mr = 8 ∧ nr = 8
    · rw [if_pos h]
      obtain ⟨h1, h2⟩ := h
      subst h1
      subst h2
      exact mk8x8_avx2_strided_frame KC Ablk Bblk ldb coff ldc C n hn
    · rw [if_neg h]
      exact mk_ref_strided_frame mr nr KC Ablk Bblk ldb coff ldc C n hn
  · intro Ablk2 Bblk2 hA hB
    unfold mk_dispatch
    by_cases h : mr = 8 ∧ nr = 8
    · rw [if_pos h, if_pos h]
      obtain ⟨h1, h2⟩ := h
      subst h1
      subst h2
      exact mk8x8_avx2_strided_congr KC Ablk Ablk2 Bblk Bblk2 ldb coff ldc C hA hB
    · rw [if_neg h, if_neg h]
      exact mk_ref_strided_congr mr nr KC Ablk Ablk2 Bblk Bblk2 ldb coff ldc C hA hB

theorem C6_witness :
    mk_dispatch 3 2 5 (fun n => (n : ℚ)) (fun n => (n : ℚ)) 2 (fun _ => 0) 0 2
      = mk_ref_strided 3 2 5 (fun n => (n : ℚ)) (fun n => (n : ℚ)) 2 (fun _ => 0) 0 2 :=
  (C6_dispatch_guard 3 2 5 (fun n => (n : ℚ)) (fun n => (n : ℚ)) 2 (fun _ => 0) 0 2).1
    (by decide)

/-- Claim C7: the flattened tile decomposition is an exact partition of the
output: for MB, NB > 0, the clamped rectangles of the tiles
t < ⌈M/MB⌉*⌈N/NB⌉ are pairwise disjoint and their union is exactly
[0,M) x [0,N). -/
theorem C7_tiles_partition (M N MB NB : Nat) (hMB : 0 < MB) (hNB : 0 < NB) :
    (∀ t1, t1 < ((M + MB - 1) / MB) * ((N + NB - 1) / NB) →
      ∀ t2, t2 < ((M + MB - 1) / MB) * ((N + NB - 1) / NB) → t1 ≠ t2 →
        Disjoint (tileRect M N MB NB t1) (tileRect M N MB NB t2))
    ∧ (Finset.range (((M + MB - 1) / MB) * ((N + NB - 1) / NB))).biUnion
        (tileRect M N MB NB) = Finset.range M ×ˢ Finset.range N := by
  constructor
  · intro t1 _ t2 _ hne
    rw [Finset.disjoint_left]
    intro x hx1 hx2
    rw [tileRect_mem M N MB NB hMB hNB t1 x] at hx1
    rw [tileRect_mem M N MB NB hMB hNB t2 x] at hx2
    apply hne
    have e1 := Nat.div_add_mod t1 ((N + NB - 1) / NB)
    have e2 := Nat.div_add_mod t2 ((N + NB - 1) / NB)
    rw [← hx1.2.2.1, ← hx1.2.2.2] at e1
    rw [← hx2.2.2.1, ← hx2.2.2.2] at e2
    exact e1.symm.trans e2
  · ext x
    rw [Finset.mem_biUnion]
    simp only [Finset.mem_product, Finset.mem_range]
    constructor
    · rintro ⟨t, ht, hx⟩
      rw [tileRect_mem M N MB NB hMB hNB t x] at hx
      exact ⟨hx.1, hx.2.1⟩
    · rintro ⟨h1, h2⟩
      refine ⟨x.1 / MB * ((N + NB - 1) / NB) + x.2 / NB, ?_, ?_⟩
      · exact encode_lt _ _ _ _ (div_lt_ceil x.1 M MB hMB h1) (div_lt_ceil x.2 N NB hNB h2)
      · rw [tileRect_mem M N MB NB hMB hNB _ x]
        have he := encode_div_mod (x.1 / MB) (x.2 / NB) ((N + NB - 1) / NB)
          (div_lt_ceil x.2 N NB hNB h2)
        exact ⟨h1, h2, he.1.symm, he.2.symm⟩

theorem C7_witness :
    (Finset.range (((5 + 2 - 1) / 2) * ((3 + 2 - 1) / 2))).biUnion (tileRect 5 3 2 2)
      = Finset.range 5 ×ˢ Finset.range 3 :=
  (C7_tiles_partition 5 3 2 2 (by decide) (by decide)).2

/-- Claim C8: the packed and strided kernel variants coincide when the
caller-supplied stride equals the packed pitch: mk8x8_avx2_strided with
ldb = 8 computes exactly mk8x8_avx2, and mk_ref_strided with ldb = NR
computes exactly mk_ref; in the embedding the two variants differ only in
the B row-address computation, which is identical at these strides, so the
results agree definitionally (scalar-identical accumulation). -/
theorem C8_strided_matches_packed (MR NR KC : Nat) (A B C : Nat → ℚ) (coff ldc : Nat) :
    mk8x8_avx2_strided KC A B 8 C coff ldc = mk8x8_avx2 KC A B C coff ldc
    ∧ mk_ref_strided MR NR KC A B NR C coff ldc = mk_ref MR NR KC A B C coff ldc :=
  ⟨rfl, rfl⟩

/-- Claim C9: the external backend is a stub: gemm_openblas always fails with
the backend-unavailable error before any computation, as does run_gemm with
name "openblas"; the error result carries no modified output, so every
element of C is left unchanged. -/
theorem C9_openblas_stub_error (M N K : Nat) (A B C : Nat → ℚ) (lda ldb ldc : Nat)
    (bs : Block) (Apk0 Bpk0 : Nat → ℚ) :
    gemm_openblas M N K A B C lda ldb ldc bs
      = Except.error "OpenBLAS not available - install via vcpkg install openblas:x64-windows"
    ∧ run_gemm "openblas" M N K A B C lda ldb ldc bs Apk0 Bpk0
      = Except.error "OpenBLAS not available - install via vcpkg install openblas:x64-windows" :=
  ⟨rfl, rfl⟩

/-- Claim C10: zero-extent calls are successful no-ops: with M = 0 or N = 0
or K = 0 (non-negative dimensions, positive tile sizes, valid strides), every
implementation returns with every element of C unchanged. -/
theorem C10_zero_extent_noop (M N K : Nat) (A B C : Nat → ℚ)
    (lda ldb ldc MB NB KB : Nat) (Apk0 Bpk0 Apk1 Bpk1 : Nat → ℚ)
    (hMB : 0 < MB) (hNB : 0 < NB) (hKB : 0 < KB)
    (hlda : K ≤ lda) (hldb : N ≤ ldb) (hldc : N ≤ ldc) (hz : M = 0 ∨ N = 0 ∨ K = 0) :
    gemm_naive M N K A B C lda ldb ldc = C
    ∧ gemm_blocked M N K A B C lda ldb ldc ⟨MB, NB, KB⟩ = C
    ∧ gemm_packed M N K A B C lda ldb ldc ⟨MB, NB, KB⟩ Apk0 Bpk0 = C
    ∧ gemm_mk_avx2 M N K A B C lda ldb ldc ⟨MB, NB, KB⟩ Apk1 Bpk1 = C := by
  refine ⟨funext fun n => ?_, funext fun n => ?_, funext fun n => ?_, funext fun n => ?_⟩
  · rw [gemm_naive_delta M N K A B lda ldb ldc C n,
      gemmDelta_zero M N K A B lda ldb ldc n hz]
    ring
  · rw [gemm_blocked_delta M N K A B lda ldb ldc MB NB KB hMB hNB hKB C n,
      gemmDelta_zero M N K A B lda ldb ldc n hz]
    ring
  · rw [gemm_packed_delta M N K A B lda ldb ldc MB NB KB hMB hNB hKB C n Apk0 Bpk0,
      gemmDelta_zero M N K A B lda ldb ldc n hz]
    ring
  · rw [gemm_mk_avx2_delta M N K A B lda ldb ldc MB NB KB hMB hNB hKB hldc C n Apk1 Bpk1,
      gemmDelta_zero M N K A B lda ldb ldc n hz]
    ring

theorem C10_witness :
    gemm_naive 0 2 2 (fun _ => 1) (fun _ => 1) (fun _ => 4) 2 2 2 = (fun _ => 4)
    ∧ gemm_blocked 0 2 2 (fun _ => 1) (fun _ => 1) (fun _ => 4) 2 2 2 ⟨1, 1, 1⟩
        = (fun _ => 4)
    ∧ gemm_packed 0 2 2 (fun _ => 1) (fun _ => 1) (fun _ => 4) 2 2 2 ⟨1, 1, 1⟩
        (fun _ => 9) (fun _ => 9) = (fun _ => 4)
    ∧ gemm_mk_avx2 0 2 2 (fun _ => 1) (fun _ => 1) (fun _ => 4) 2 2 2 ⟨1, 1, 1⟩
        (fun _ => 9) (fun _ => 9) = (fun _ => 4) :=
  C10_zero_extent_noop 0 2 2 (fun _ => 1) (fun _ => 1) (fun _ => 4) 2 2 2 1 1 1
    (fun _ => 9) (fun _ => 9) (fun _ => 9) (fun _ => 9)
    (by decide) (by decide) (by decide) (by decide) (by decide) (by decide)
    (Or.inl rfl)

end Gemm
